import Mathlib

/-!
# Verification of the hnsw HNSW graph library

Shallow embedding of the core graph engine (the error-returning variant of
graph.go), its serializer (encode.go) and distance kernel (distance.go),
with theorems settling the frozen claims C1..C10.

Modelling conventions, stated once here and referenced below:
* Keys are natural numbers (the Go code is generic over cmp.Ordered).
* float32 values carried in vectors are modelled as rationals; float32
  distance results are modelled by `F32`, which adds NaN and the two
  infinities so that IEEE comparison behaviour (NaN never compares) is
  preserved where the source depends on it.
* Go maps are modelled as association lists sorted by key; map iteration
  is modelled as ascending-key iteration (the source sorts keys where
  iteration influences results; elsewhere Go order is unspecified and the
  ascending order is one admissible schedule, noted at each use).
* Go pointers are modelled by indices into an append-only store of node
  records; a nil pointer is `Option.none`.
* math.Sqrt on float32 is modelled by `Rat.sqrt` (exact on squares; no
  claim below depends on inexact square roots).
-/

attribute [local semireducible] Rat.add Rat.mul Rat.sub Rat.inv

deriving instance DecidableEq for Except

namespace HNSW

/-- IEEE-style float32 value as used for distances: NaN, -Inf, +Inf or a
finite value (modelled as a rational). -/
inductive F32 where
  | nan : F32
  | ninf : F32
  | pinf : F32
  | val : ℚ → F32
  deriving DecidableEq, Repr

namespace F32

/-- IEEE comparison: any comparison involving NaN is false. -/
def lt : F32 → F32 → Bool
  | nan, _ => false
  | _, nan => false
  | ninf, ninf => false
  | ninf, _ => true
  | _, ninf => false
  | pinf, _ => false
  | _, pinf => true
  | val a, val b => a < b

/-- IEEE greater-than, used by the worst-neighbor scan. -/
def gt (a b : F32) : Bool := lt b a

/-- IEEE less-or-equal (false whenever NaN is involved). -/
def le : F32 → F32 → Bool
  | nan, _ => false
  | _, nan => false
  | ninf, _ => true
  | _, ninf => false
  | _, pinf => true
  | pinf, _ => false
  | val a, val b => a ≤ b

end F32

/-- Vectors as in the source: sequences of float32, modelled as rationals. -/
abbrev Vec := List ℚ

/-- DistanceFunc from distance.go. -/
abbrev DistanceFunc := Vec → Vec → F32

/-- Largest r at most the bound with r * r ≤ n (structural recursion so
concrete runs reduce in the kernel). -/
def isqrtGo (n : ℕ) : ℕ → ℕ
  | 0 => 0
  | r + 1 => if (r + 1) * (r + 1) ≤ n then r + 1 else isqrtGo n r

/-- Integer square root (floor). -/
def isqrt (n : ℕ) : ℕ := isqrtGo n n

/-- float32 square root, modelled by the exact rational square root
(floor square roots of numerator and denominator; exact on perfect
squares, which is all any claim below depends on). -/
def fsqrt (q : ℚ) : ℚ := mkRat (isqrt q.num.toNat) (isqrt q.den)

/-- CosineDistance from distance.go: dot product and norms accumulated,
zero-norm guard returning 0, otherwise 1 - dot/(sqrt normA * sqrt normB).
Go iterates over the indices of the first argument; zipWith matches that
whenever the first vector is at most as long as the second. -/
def CosineDistance (a b : Vec) : F32 :=
  let dotProduct := (List.zipWith (· * ·) a b).sum
  let normA := (a.map (fun x => x * x)).sum
  let normB := (b.map (fun x => x * x)).sum
  if normA = 0 ∨ normB = 0 then
    F32.val 0
  else
    F32.val (1 - dotProduct / (fsqrt normA * fsqrt normB))

/-- EuclideanDistance from distance.go. -/
def EuclideanDistance (a b : Vec) : F32 :=
  F32.val (fsqrt ((List.zipWith (fun x y => (x - y) * (x - y)) a b).sum))

/-- The process-wide distance registry from distance.go (initial state,
before any RegisterDistanceFunc call). -/
def distanceFuncs : List (String × DistanceFunc) :=
  [("euclidean", EuclideanDistance), ("cosine", CosineDistance)]

/-- distanceFuncToName succeeds exactly when the function is one of the
registered ones (Go compares function pointers; in the model two
distance functions are identified by function equality). -/
def registered (f : DistanceFunc) : Prop :=
  ∃ p ∈ distanceFuncs, p.2 = f

/-! ## Bounded priority queue

Modelled from the spec: the heap package is absent from src/ (only its
test file is present), so the "bounded priority queue" of spec section 2
is modelled here from the spec's words: a min/max addressable collection
supporting push, pop-min, pop-max, peek-min, peek-max, length and
initialization.  The model keeps the elements as a sequence whose head is
always a minimal element (re-established after every operation); pop-min
takes the head, pop-max removes the first maximal element.  The sequence
itself (returned by Slice in the source) is NOT kept sorted — src's own
TestGraph_AddSearch pins result lists that are not in ascending distance
order, so a sorted-sequence model would contradict the repository's
tests. -/

/-- A search candidate: node id and its distance (searchCandidate in
graph.go; Less compares distances with the float32 order). -/
abbrev SC := ℕ × F32

/-- Extract a first minimal element and the remaining elements (kept in
their original relative order). -/
def pullMin : List SC → Option (SC × List SC)
  | [] => none
  | x :: xs =>
    match pullMin xs with
    | none => some (x, [])
    | some (m, r) => if F32.lt m.2 x.2 then some (m, x :: r) else some (x, xs)

/-- Extract a first maximal element and the remaining elements. -/
def pullMax : List SC → Option (SC × List SC)
  | [] => none
  | x :: xs =>
    match pullMax xs with
    | none => some (x, [])
    | some (m, r) => if F32.gt m.2 x.2 then some (m, x :: r) else some (x, xs)

/-- Re-establish the head-is-minimal shape. -/
def pqFix (l : List SC) : List SC :=
  match pullMin l with
  | none => []
  | some (m, r) => m :: r

/-- Push (the queue stays head-minimal). -/
def pqPush (x : SC) (l : List SC) : List SC := pqFix (l ++ [x])

/-- Peek-min. -/
def pqMin (l : List SC) : Option SC := l.head?

/-- Peek-max. -/
def pqMax (l : List SC) : Option SC := (pullMax l).map (·.1)

/-- Pop-max: drop a first maximal element. -/
def pqPopLast (l : List SC) : List SC :=
  match pullMax l with
  | none => []
  | some (_, r) => pqFix r

/-! ## Graph state -/

/-- A layer node (layerNode in graph.go): key, vector, and the neighbor
map.  The neighbor map is an association list sorted by key whose values
are node pointers (store indices), possibly nil; the whole map itself can
be nil (Go's zero value), which behaves differently from an empty map in
the search loop. -/
structure NodeRec where
  key : ℕ
  value : Vec
  nbrs : Option (List (ℕ × Option ℕ))
  deriving DecidableEq, Repr

/-- The node store: models the Go heap.  A pointer is an index; records
are never deallocated (garbage survives exactly like unreachable Go
objects reachable through stale pointers). -/
abbrev Store := List NodeRec

/-- Dereference a pointer. -/
def getN (s : Store) (i : ℕ) : Option NodeRec := s.get? i

/-- Write through a pointer. -/
def setN (s : Store) (i : ℕ) (r : NodeRec) : Store := s.set i r

/-- A layer (layer in graph.go): map from key to node pointer, modelled
as an association list sorted by key. -/
abbrev LayerMap := List (ℕ × ℕ)

/-- Association list lookup. -/
def alookup {α : Type} (k : ℕ) : List (ℕ × α) → Option α
  | [] => none
  | (k', v) :: rest => if k = k' then some v else alookup k rest

/-- Association list insert-or-replace keeping ascending key order. -/
def ainsert {α : Type} (k : ℕ) (v : α) : List (ℕ × α) → List (ℕ × α)
  | [] => [(k, v)]
  | (k', v') :: rest =>
    if k < k' then (k, v) :: (k', v') :: rest
    else if k = k' then (k, v) :: rest
    else (k', v') :: ainsert k v rest

/-- Association list delete. -/
def aerase {α : Type} (k : ℕ) : List (ℕ × α) → List (ℕ × α)
  | [] => []
  | (k', v') :: rest => if k = k' then rest else (k', v') :: aerase k rest

/-- The graph (Graph in graph.go).  The Distance field is passed to the
operations as an explicit parameter (it is a function and would prevent
decidable equality of states); the Rng field is the not-yet-consumed
prefix of the draw stream. -/
structure GGraph where
  M : ℕ
  Ml : ℚ
  EfSearch : ℕ
  rng : List ℚ
  store : Store
  layers : List LayerMap
  deriving DecidableEq, Repr

/-- Number of nodes of a layer (layer.size). -/
def layerSize (l : LayerMap) : ℕ := l.length

/-- The entry node of a layer (layer.entry): the first node of the map
iteration, i.e. the member with the smallest key in this model. -/
def layerEntry (l : LayerMap) : Option ℕ := (l.head?).map (·.2)

/-- Len (graph.go): size of the base layer. -/
def LenF (g : GGraph) : ℕ :=
  match g.layers with
  | [] => 0
  | l :: _ => layerSize l

/-- Dims (graph.go): the length of the base-layer entry node's vector,
0 for an empty graph. -/
def DimsF (g : GGraph) : ℕ :=
  match g.layers with
  | [] => 0
  | l :: _ =>
    match layerEntry l with
    | none => 0
    | some i =>
      match getN g.store i with
      | none => 0
      | some r => r.value.length

/-- Validate (graph.go): M, Ml, EfSearch range checks.  The Distance nil
check is modelled by the ambient distance parameter being present. -/
def ValidateF (g : GGraph) : Except String Unit :=
  if g.M = 0 then .error "M must be greater than 0"
  else if g.Ml ≤ 0 ∨ 1 ≤ g.Ml then .error "Ml must be between 0 and 1 (exclusive)"
  else if g.EfSearch = 0 then .error "EfSearch must be greater than 0"
  else .ok ()

/-! ## Node primitives: addNeighbor, replenish, isolate

The Go functions addNeighbor and replenish are mutually recursive through
pointer mutation; the model threads the store explicitly and uses a fuel
parameter, decremented at every (mutual or loop) call, so the recursion is
structural.  All concrete runs below use ample fuel and the universal
theorems quantify over it. -/

/-- One step of the worst-neighbor scan of addNeighbor: accumulator is
(worstDist, worst) with worstDist starting at float32 -Inf and worst at
nil; the Go condition is d > worstDist || worst == nil, so NaN distances
are only ever selected through the worst == nil disjunct.  `worst` keeps
the pointer and the record key of the selected neighbor. -/
def worstStep (s : Store) (nval : Vec) (dist : DistanceFunc)
    (acc : F32 × Option (ℕ × ℕ)) (e : ℕ × Option ℕ) : F32 × Option (ℕ × ℕ) :=
  match e.2 with
  | none => acc
  | some id =>
    match getN s id with
    | none => acc
    | some rec0 =>
      let d := dist rec0.value nval
      if F32.gt d acc.1 || acc.2.isNone then (d, some (id, rec0.key)) else acc

/-- The worst-neighbor scan over the (ascending-key) entries. -/
def worstScan (s : Store) (nval : Vec) (dist : DistanceFunc)
    (entries : List (ℕ × Option ℕ)) : F32 × Option (ℕ × ℕ) :=
  entries.foldl (worstStep s nval dist) (F32.ninf, none)

/-- Inner loop of replenish's candidate collection: one neighbor's own
neighbor map, skipping visited keys and nil pointers, scoring by
CosineDistance to the replenished node (the source hard-codes
CosineDistance here). -/
def collectInner (s : Store) (nval : Vec) :
    List (ℕ × Option ℕ) → List ℕ → List SC → List ℕ × List SC
  | [], visited, cands => (visited, cands)
  | (k2, v2) :: rest, visited, cands =>
    if visited.contains k2 then collectInner s nval rest visited cands
    else
      match v2 with
      | none => collectInner s nval rest visited cands
      | some id2 =>
        let visited' := k2 :: visited
        match getN s id2 with
        | none => collectInner s nval rest visited' cands
        | some rec2 =>
          let d := CosineDistance rec2.value nval
          collectInner s nval rest visited' (pqPush (id2, d) cands)

/-- Candidate collection of replenish: two-hop neighbors not already
visited. -/
def collectCands (s : Store) (nval : Vec) :
    List (ℕ × Option ℕ) → List ℕ → List SC → List ℕ × List SC
  | [], visited, cands => (visited, cands)
  | (_, v1) :: rest, visited, cands =>
    match v1 with
    | none => collectCands s nval rest visited cands
    | some id1 =>
      match getN s id1 with
      | none => collectCands s nval rest visited cands
      | some rec1 =>
        match rec1.nbrs with
        | none => collectCands s nval rest visited cands
        | some inner =>
          let (visited', cands') := collectInner s nval inner visited cands
          collectCands s nval rest visited' cands'

mutual

/-- addNeighbor (graph.go): insert the new neighbor; if the map now
exceeds m entries, evict the worst-distance neighbor, remove its
reciprocal edge, and replenish it.  Iteration over the neighbor map is
modelled in ascending key order (Go's order is unspecified here). -/
def addNeighborF : ℕ → Store → ℕ → ℕ → ℕ → DistanceFunc → Store
  | 0, s, _, _, _, _ => s
  | fuel + 1, s, nId, newId, m, dist =>
    match getN s nId, getN s newId with
    | some nrec, some newRec =>
      let nbrs1 := ainsert newRec.key (some newId) (nrec.nbrs.getD [])
      let s1 := setN s nId { nrec with nbrs := some nbrs1 }
      if nbrs1.length ≤ m then s1
      else
        match (worstScan s1 nrec.value dist nbrs1).2 with
        | none => s1
        | some (wid, wkey) =>
          match getN s1 nId with
          | none => s1
          | some nrec1 =>
            let s2 := setN s1 nId { nrec1 with nbrs := some (aerase wkey (nrec1.nbrs.getD [])) }
            match getN s2 wid with
            | none => s2
            | some wrec =>
              let s3 :=
                match wrec.nbrs with
                | none => s2
                | some wn => setN s2 wid { wrec with nbrs := some (aerase nrec.key wn) }
              replenishF fuel s3 wid m
    | _, _ => s
termination_by structural fuel => fuel

/-- replenish (graph.go): if the degree is below m, collect two-hop
candidates into a priority queue and addNeighbor the best ones until the
degree reaches m or candidates run out. -/
def replenishF : ℕ → Store → ℕ → ℕ → Store
  | 0, s, _, _ => s
  | fuel + 1, s, nId, m =>
    match getN s nId with
    | none => s
    | some nrec =>
      if m ≤ (nrec.nbrs.getD []).length then s
      else
        let visited := nrec.key :: (nrec.nbrs.getD []).map (·.1)
        let (_, cands) := collectCands s nrec.value (nrec.nbrs.getD []) visited []
        replenishLoop fuel s nId m cands
termination_by structural fuel => fuel

/-- The pop loop of replenish: re-reads the degree before every step,
exactly like the Go loop condition. -/
def replenishLoop : ℕ → Store → ℕ → ℕ → List SC → Store
  | 0, s, _, _, _ => s
  | _ + 1, s, _, _, [] => s
  | fuel + 1, s, nId, m, c :: rest =>
    match getN s nId with
    | none => s
    | some nrec =>
      if (nrec.nbrs.getD []).length < m then
        let s' := addNeighborF fuel s nId c.1 m CosineDistance
        replenishLoop fuel s' nId m (pqFix rest)
      else s
termination_by structural fuel => fuel

end

/-- Body loop of isolate over the snapshot of the neighbor entries. -/
def isolateGo (fuel : ℕ) (nkey : ℕ) : List (ℕ × Option ℕ) → Store → ℕ → Store
  | [], s, _ => s
  | (_, v) :: rest, s, m =>
    match v with
    | none => isolateGo fuel nkey rest s m
    | some nbId =>
      match getN s nbId with
      | none => isolateGo fuel nkey rest s m
      | some nbrec =>
        match nbrec.nbrs with
        | none => isolateGo fuel nkey rest s m
        | some nbn =>
          let s1 := setN s nbId { nbrec with nbrs := some (aerase nkey nbn) }
          let s2 := replenishF fuel s1 nbId m
          isolateGo fuel nkey rest s2 m

/-- isolate (graph.go): remove the reciprocal edges from every neighbor
and replenish each of them.  The iteration works on a snapshot of the
neighbor map taken at entry (Go iterates the live map in unspecified
order; for the runs below the two coincide since nothing removes entries
of the isolated node's own map during the loop). -/
def isolateF (fuel : ℕ) (s : Store) (nId : ℕ) (m : ℕ) : Store :=
  match getN s nId with
  | none => s
  | some nrec =>
    match nrec.nbrs with
    | none => s
    | some entries => isolateGo fuel nrec.key entries s m

/-! ## Greedy layer search (layerNode.search, graph.go lines 1011-1087) -/

/-- One neighbor step of the search loop: skip nil pointers and visited
keys, mark visited, score, update the result set (bounded by k) and the
candidate frontier (bounded by efSearch). -/
def stepNbr (s : Store) (k ef : ℕ) (target : Vec) (dist : DistanceFunc)
    (st : List SC × List ℕ × List SC × Bool) (e : ℕ × Option ℕ) :
    List SC × List ℕ × List SC × Bool :=
  let (cands, visited, result, improved) := st
  match e.2 with
  | none => st
  | some nid =>
    if visited.contains e.1 then st
    else
      let visited' := e.1 :: visited
      match getN s nid with
      | none => (cands, visited', result, improved)
      | some nb =>
        let d := dist nb.value target
        let improved' := improved ||
          (result.length > 0 && (match pqMin result with
            | some mn => F32.lt d mn.2
            | none => false))
        let result' :=
          if result.length < k then pqPush (nid, d) result
          else
            match pqMax result with
            | some mx => if F32.lt d mx.2 then pqPush (nid, d) (pqPopLast result) else result
            | none => result
        let cands1 := pqPush (nid, d) cands
        let cands' := if ef < cands1.length then pqPopLast cands1 else cands1
        (cands', visited', result', improved')

/-- The main search loop: pop the closest candidate, process its
neighbors in ascending key order, stop when no push improved the best
distance and the result already has k members. -/
def searchLoop (s : Store) (k ef : ℕ) (target : Vec) (dist : DistanceFunc) :
    ℕ → List SC → List ℕ → List SC → List SC
  | 0, _, _, result => result
  | fuel + 1, cands, visited, result =>
    match cands with
    | [] => result
    | c :: rest =>
      let cands0 := pqFix rest
      match getN s c.1 with
      | none => searchLoop s k ef target dist fuel cands0 visited result
      | some cur =>
        match cur.nbrs with
        | none => searchLoop s k ef target dist fuel cands0 visited result
        | some entries =>
          let (cands', visited', result', improved) :=
            entries.foldl (stepNbr s k ef target dist) (cands0, visited, result, false)
          if !improved && k ≤ result'.length then result'
          else searchLoop s k ef target dist fuel cands' visited' result'

/-- Total number of neighbor-map entries in the store; every loop
iteration pops one candidate and candidates are only pushed for freshly
visited keys, so this (plus slack for the entry) bounds the loop. -/
def totalNbrs (s : Store) : ℕ := (s.map (fun r => (r.nbrs.getD []).length)).sum

/-- Fuel that provably suffices for the search loop (claim C10). -/
def searchBound (s : Store) : ℕ := 2 * totalNbrs s + 4

/-- layerNode.search: nil search points give an empty result (the nil
check at the top of the source function); otherwise both collections
start with the entry node and the loop runs to completion. -/
def searchF (s : Store) (start : Option ℕ) (k ef : ℕ) (target : Vec)
    (dist : DistanceFunc) : List SC :=
  match start with
  | none => []
  | some nId =>
    match getN s nId with
    | none => []
    | some n =>
      let c0 : SC := (nId, dist n.value target)
      let cands := pqPush c0 []
      let result :=
        match pqMin cands with
        | some mn => pqPush mn []
        | none => []
      searchLoop s k ef target dist (searchBound s) cands [n.key] result

/-! ## Level generation (maxLevel, randomLevel) -/

/-- Search for the least k with numNodes^2 < (1/ml)^(2k+1); this is the
computable characterization of round(log numNodes / log(1/ml)) proved in
the lemmas below (for 0 < ml < 1). -/
def mlFind (b n2 : ℚ) : ℕ → ℕ → ℕ
  | 0, k => k
  | fuel + 1, k => if n2 < b ^ (2 * k + 1) then k else mlFind b n2 fuel (k + 1)

/-- maxLevel (graph.go): errors on ml = 0, returns 1 for an empty base
layer, and otherwise round(log numNodes / log(1/ml)) + 1 computed through
the rational characterization above (the Go code computes the formula in
float64; the model treats the real-number formula as exact). -/
def maxLevelC (ml : ℚ) (numNodes : ℕ) : Except String ℤ :=
  if ml = 0 then .error "ml must be greater than 0"
  else if numNodes = 0 then .ok 1
  else
    let b := 1 / ml
    let fuel := (⌈((numNodes : ℚ) ^ 2) / (b - 1)⌉).toNat + 2
    .ok ((mlFind b ((numNodes : ℚ) ^ 2) fuel 0 : ℤ) + 1)

/-- The draw loop of randomLevel: up to the given number of draws,
return the first level whose draw exceeds ml; an exhausted stream is
modelled as drawing 0.  Returns the reached level and the remaining
stream. -/
def drawLevels (ml : ℚ) : ℕ → ℕ → List ℚ → ℕ × List ℚ
  | 0, level, rng => (level, rng)
  | it + 1, level, rng =>
    let r := rng.headD 0
    let rng' := rng.tail
    if ml < r then (level, rng') else drawLevels ml it (level + 1) rng'

/-- randomLevel (graph.go): max is 1 for a graph without layers, else
maxLevel of the base-layer size; draws up to max uniforms and returns the
first level whose draw exceeds Ml, or max itself. -/
def randomLevelF (g : GGraph) : Except String (ℤ × GGraph) :=
  match g.layers with
  | [] =>
    let (lv, rng') := drawLevels g.Ml 1 0 g.rng
    .ok (((if lv = 1 then (1 : ℤ) else (lv : ℤ))), { g with rng := rng' })
  | l0 :: _ =>
    if g.Ml = 0 then .error "(*Graph).Ml must be greater than 0"
    else
      match maxLevelC g.Ml (layerSize l0) with
      | .error e => .error e
      | .ok mx =>
        let (lv, rng') := drawLevels g.Ml mx.toNat 0 g.rng
        .ok (((if lv = mx.toNat then mx else (lv : ℤ))), { g with rng := rng' })

/-! ## Graph operations: Delete, Lookup, Add, Search -/

/-- Allocate a fresh node record, returning the new store and pointer. -/
def alloc (s : Store) (r : NodeRec) : Store × ℕ := (s ++ [r], s.length)

/-- Fetch the i-th layer (base layer is index 0). -/
def getLayer (g : GGraph) (i : ℕ) : LayerMap := (g.layers.get? i).getD []

/-- Replace the i-th layer. -/
def setLayer (g : GGraph) (i : ℕ) (l : LayerMap) : GGraph :=
  { g with layers := g.layers.set i l }

/-- Per-layer loop of Delete. -/
def deleteGo (fuel : ℕ) (key : ℕ) : List ℕ → Bool → GGraph → Bool × GGraph
  | [], deleted, g => (deleted, g)
  | i :: rest, deleted, g =>
    let layer := getLayer g i
    match alookup key layer with
    | none => deleteGo fuel key rest deleted g
    | some nid =>
      let g1 := setLayer g i (aerase key layer)
      let g2 := { g1 with store := isolateF fuel g1.store nid g1.M }
      deleteGo fuel key rest true g2

/-- Delete (graph.go): walk the layers from the base up, remove the key
from each layer it occurs in and isolate the removed node. -/
def DeleteF (fuel : ℕ) (g : GGraph) (key : ℕ) : Bool × GGraph :=
  match g.layers with
  | [] => (false, g)
  | _ => deleteGo fuel key (List.range g.layers.length) false g

/-- Lookup (graph.go): the vector stored under the key in the base
layer. -/
def LookupF (g : GGraph) (key : ℕ) : Option Vec :=
  match g.layers with
  | [] => none
  | l0 :: _ =>
    match alookup key l0 with
    | none => none
    | some nid => (getN g.store nid).map (·.value)

/-- Key of the node a search candidate points at (the pointer always
resolves for candidates produced by searchF). -/
def candKey (s : Store) (c : SC) : ℕ :=
  match getN s c.1 with
  | some r => r.key
  | none => 0

/-- Append empty layers until the insert level is inside the stack. -/
def extendLayers (g : GGraph) (insertLevel : ℤ) : GGraph :=
  { g with layers := g.layers ++ List.replicate ((insertLevel + 1 - g.layers.length).toNat) [] }

/-- Wire bidirectional edges between the new node and each member of the
neighborhood, in result order. -/
def wireNbhd (fuel : ℕ) (m : ℕ) (dist : DistanceFunc) (newId : ℕ) :
    List SC → Store → Store
  | [], s => s
  | c :: rest, s =>
    let s1 := addNeighborF fuel s c.1 newId m dist
    let s2 := addNeighborF fuel s1 newId c.1 m dist
    wireNbhd fuel m dist newId rest s2

/-- The per-layer descent of Add, from the top layer down to the base. -/
def addLayers (fuel : ℕ) (dist : DistanceFunc) (key : ℕ) (vec : Vec)
    (insertLevel : ℤ) : List ℕ → Option ℕ → GGraph → Except String Unit × GGraph
  | [], _, g => (.ok (), g)
  | i :: rest, elevator, g =>
    let layer := getLayer g i
    match layerEntry layer with
    | none =>
      let (s', newId) := alloc g.store { key := key, value := vec, nbrs := none }
      let g1 := setLayer { g with store := s' } i [(key, newId)]
      addLayers fuel dist key vec insertLevel rest elevator g1
    | some entryId =>
      let searchPoint : Option ℕ :=
        match elevator with
        | none => some entryId
        | some e => alookup e layer
      let neighborhood := searchF g.store searchPoint g.M g.EfSearch vec dist
      match neighborhood.head? with
      | none => (.error "no nodes found in neighborhood search", g)
      | some c0 =>
        let elevator' := some (candKey g.store c0)
        if insertLevel ≥ (i : ℤ) then
          let g1 :=
            match alookup key layer with
            | some _ => (DeleteF fuel g key).2
            | none => g
          let (s', newId) := alloc g1.store { key := key, value := vec, nbrs := none }
          let g2 := setLayer { g1 with store := s' } i (ainsert key newId (getLayer g1 i))
          let g3 := { g2 with store := wireNbhd fuel g2.M dist newId neighborhood g2.store }
          addLayers fuel dist key vec insertLevel rest elevator' g3
        else
          addLayers fuel dist key vec insertLevel rest elevator' g

/-- Insertion of a single node (the body of Add's loop over its
arguments). -/
def addOne (fuel : ℕ) (dist : DistanceFunc) (g : GGraph) (key : ℕ) (vec : Vec) :
    Except String Unit × GGraph :=
  if g.layers ≠ [] ∧ DimsF g ≠ vec.length then
    (.error "embedding dimension mismatch", g)
  else
    match randomLevelF g with
    | .error e => (.error e, g)
    | .ok (insertLevel, g1) =>
      let g2 := extendLayers g1 insertLevel
      if insertLevel < 0 then (.error "invalid level", g2)
      else
        let preLen := LenF g2
        match addLayers fuel dist key vec insertLevel
            (List.range g2.layers.length).reverse none g2 with
        | (.error e, g3) => (.error e, g3)
        | (.ok _, g3) =>
          if LenF g3 ≠ preLen + 1 then (.error "node not added", g3)
          else (.ok (), g3)

/-- Loop of Add over the argument nodes. -/
def addAll (fuel : ℕ) (dist : DistanceFunc) : List (ℕ × Vec) → GGraph →
    Except String Unit × GGraph
  | [], g => (.ok (), g)
  | (k, v) :: rest, g =>
    match addOne fuel dist g k v with
    | (.error e, g') => (.error e, g')
    | (.ok _, g') => addAll fuel dist rest g'

/-- Add (graph.go lines 1345-1436): validate once, then insert each node
in turn, stopping at the first error. -/
def AddF (fuel : ℕ) (dist : DistanceFunc) (g : GGraph) (nodes : List (ℕ × Vec)) :
    Except String Unit × GGraph :=
  match ValidateF g with
  | .error e => (.error e, g)
  | .ok _ => addAll fuel dist nodes g

/-- The layer descent of Search; index list is top-down, ending with the
base layer.  A panic of the Go code (indexing an empty search result on a
layer above the base) is modelled as an error string with prefix
"panic:". -/
def searchDescend (dist : DistanceFunc) (g : GGraph) (near : Vec) (k : ℕ) :
    List ℕ → Option ℕ → Except String (List (ℕ × Vec))
  | [], _ => .error "unreachable code reached"
  | i :: rest, elevator =>
    let layer := getLayer g i
    let searchPoint : Option ℕ :=
      match elevator with
      | none => layerEntry layer
      | some e => alookup e layer
    if i = 0 then
      let nodes := searchF g.store searchPoint k g.EfSearch near dist
      .ok (nodes.map (fun c =>
        match getN g.store c.1 with
        | some r => (r.key, r.value)
        | none => (0, [])))
    else
      let nodes := searchF g.store searchPoint 1 g.EfSearch near dist
      match nodes.head? with
      | none => .error "panic: index out of range"
      | some c => searchDescend dist g near k rest (some (candKey g.store c))

/-- Search (graph.go lines 1439-1490): validation, k and dimension
checks, then the greedy descent. -/
def SearchF (dist : DistanceFunc) (g : GGraph) (near : Vec) (k : ℕ) :
    Except String (List (ℕ × Vec)) :=
  match ValidateF g with
  | .error e => .error e
  | .ok _ =>
    if k = 0 then .error "k must be greater than 0"
    else if g.layers ≠ [] ∧ DimsF g ≠ near.length then
      .error "embedding dimension mismatch"
    else
      match g.layers with
      | [] => .ok []
      | _ => searchDescend dist g near k (List.range g.layers.length).reverse none

/-! ## Serializer (encode.go lines 107-222)

The byte level (varint and float32 little-endian encodings) is abstracted
into a token stream: each binaryWrite of an int, float64, string or
float32 slice becomes one token.  The varint and raw encodings are
injective, so round-trip properties are preserved by this abstraction. -/

/-- One binaryWrite unit. -/
inductive Tok where
  | tint : ℤ → Tok
  | tf64 : ℚ → Tok
  | tstr : String → Tok
  | tvec : List ℚ → Tok
  deriving DecidableEq, Repr

/-- Discriminator: is the token a length-prefixed string? -/
def Tok.isStr : Tok → Bool
  | Tok.tstr _ => true
  | _ => false

/-- Tokens written for one node: the node point (key, vector length,
vector payload — Vector.WriteTo in vector.go), then the neighbor count
and the neighbor keys in map (ascending-key) order. -/
def exportNode (s : Store) (e : ℕ × ℕ) : List Tok :=
  match getN s e.2 with
  | none => []
  | some r =>
    [Tok.tint r.key, Tok.tint r.value.length, Tok.tvec r.value,
     Tok.tint (r.nbrs.getD []).length] ++ (r.nbrs.getD []).map (fun p => Tok.tint p.1)

/-- Tokens written for one layer: node count, then the nodes in map
(ascending-key) order. -/
def exportLayer (s : Store) (l : LayerMap) : List Tok :=
  Tok.tint l.length :: l.flatMap (exportNode s)

/-- Export (encode.go lines 107-147): encoding version, M, Ml, EfSearch,
the number of layers, then the per-layer data.  Note: no distance-function
name is written, and the registry is never consulted. -/
def exportF (g : GGraph) : List Tok :=
  [Tok.tint 1, Tok.tint g.M, Tok.tf64 g.Ml, Tok.tint g.EfSearch,
   Tok.tint g.layers.length] ++ g.layers.flatMap (exportLayer g.store)

/-- Read an int token. -/
def rdInt : List Tok → Except String (ℤ × List Tok)
  | Tok.tint z :: r => .ok (z, r)
  | _ => .error "reading int: unexpected data"

/-- Read a float64 token. -/
def rdF64 : List Tok → Except String (ℚ × List Tok)
  | Tok.tf64 q :: r => .ok (q, r)
  | _ => .error "reading float64: unexpected data"

/-- Read a vector payload token. -/
def rdVec : List Tok → Except String (List ℚ × List Tok)
  | Tok.tvec v :: r => .ok (v, r)
  | _ => .error "reading vector: unexpected data"

/-- Read n neighbor keys. -/
def rdKeys : ℕ → List Tok → Except String (List ℕ × List Tok)
  | 0, toks => .ok ([], toks)
  | n + 1, toks =>
    match rdInt toks with
    | .error e => .error e
    | .ok (k, toks1) =>
      match rdKeys n toks1 with
      | .error e => .error e
      | .ok (ks, toks2) => .ok (k.toNat :: ks, toks2)

/-- A parsed node: key, vector and stashed neighbor keys (the first pass
of Import materializes nodes with unresolved neighbor key lists). -/
structure ImpNode where
  key : ℕ
  vec : List ℚ
  nbrKeys : List ℕ
  deriving DecidableEq, Repr

/-- Read the nodes of one layer. -/
def rdNodes : ℕ → List Tok → Except String (List ImpNode × List Tok)
  | 0, toks => .ok ([], toks)
  | n + 1, toks =>
    match rdInt toks with
    | .error e => .error e
    | .ok (key, toks1) =>
      match rdInt toks1 with
      | .error e => .error e
      | .ok (_, toks2) =>
        match rdVec toks2 with
        | .error e => .error e
        | .ok (vec, toks3) =>
          match rdInt toks3 with
          | .error e => .error e
          | .ok (nnb, toks4) =>
            match rdKeys nnb.toNat toks4 with
            | .error e => .error e
            | .ok (ks, toks5) =>
              match rdNodes n toks5 with
              | .error e => .error e
              | .ok (ns, toks6) => .ok (⟨key.toNat, vec, ks⟩ :: ns, toks6)

/-- Read all layers. -/
def rdLayers : ℕ → List Tok → Except String (List (List ImpNode) × List Tok)
  | 0, toks => .ok ([], toks)
  | n + 1, toks =>
    match rdInt toks with
    | .error e => .error e
    | .ok (nNodes, toks1) =>
      match rdNodes nNodes.toNat toks1 with
      | .error e => .error e
      | .ok (ns, toks2) =>
        match rdLayers n toks2 with
        | .error e => .error e
        | .ok (ls, toks3) => .ok (ns :: ls, toks3)

/-- Materialize one imported layer: allocate the records (starting at
store index base), build the key map (later duplicates overwrite), then
resolve each surviving node's neighbor keys within the layer (unresolved
keys stay nil). -/
def buildLayer (base : ℕ) (ns : List ImpNode) : List NodeRec × LayerMap :=
  let layerMap : LayerMap :=
    (ns.enum).foldl (fun acc p => ainsert p.2.key (base + p.1) acc) []
  let recs : List NodeRec :=
    (ns.enum).map (fun p =>
      let raw := p.2.nbrKeys.foldl (fun acc k => ainsert k none acc) []
      if alookup p.2.key layerMap = some (base + p.1) then
        { key := p.2.key, value := p.2.vec,
          nbrs := some (raw.map (fun q => (q.1, alookup q.1 layerMap))) }
      else
        { key := p.2.key, value := p.2.vec, nbrs := some raw })
  (recs, layerMap)

/-- Materialize all imported layers into a fresh store. -/
def buildLayers : List (List ImpNode) → Store → List LayerMap → Store × List LayerMap
  | [], s, ls => (s, ls.reverse)
  | ns :: rest, s, ls =>
    let (recs, lm) := buildLayer s.length ns
    buildLayers rest (s ++ recs) (lm :: ls)

/-- Import (encode.go lines 153-222): parse the header, reject version
mismatches, overwrite M, Ml and EfSearch from the stream, then rebuild
the layers in two passes.  The rebuilt nodes live in a fresh store (the
old records are unreachable, like the garbage Go leaves behind). -/
def importF (toks : List Tok) (g : GGraph) : Except String GGraph :=
  match rdInt toks with
  | .error e => .error e
  | .ok (version, toks1) =>
    match rdInt toks1 with
    | .error e => .error e
    | .ok (m, toks2) =>
      match rdF64 toks2 with
      | .error e => .error e
      | .ok (ml, toks3) =>
        match rdInt toks3 with
        | .error e => .error e
        | .ok (ef, toks4) =>
          if version ≠ 1 then .error "incompatible encoding version"
          else
            match rdInt toks4 with
            | .error e => .error e
            | .ok (nLayers, toks5) =>
              match rdLayers nLayers.toNat toks5 with
              | .error e => .error e
              | .ok (ls, _) =>
                let (s, lms) := buildLayers ls [] []
                .ok { g with M := m.toNat, Ml := ml, EfSearch := ef.toNat,
                             store := s, layers := lms }

/-! ## Specification-side definitions (used to state claim C7)

These two follow the spec's words (spec section 4.1, randomLevel), to be
compared with the implementation definitions above. -/

/-- The spec's maxLevel: round(log N / log(1/Ml)) + 1, and 1 for N = 0. -/
noncomputable def specMaxLevel (ml : ℚ) (n : ℕ) : ℤ :=
  if n = 0 then 1 else round (Real.log n / Real.log (1 / (ml : ℝ))) + 1

/-- The spec's level choice: the smallest level whose draw (0-indexed)
exceeds Ml, or max when all max draws are ≤ Ml. -/
def leastExceed (ml : ℚ) (draws : List ℚ) (max : ℕ) : ℕ :=
  (((List.range max).filter (fun j => ml < draws.getD j 0)).head?).getD max

/-- The spec's maxLevel for a whole graph: computed from the size of the
base layer, with N = 0 when the graph has no layers (spec: treat N=0 as
maxLevel=1). -/
noncomputable def specMax (g : GGraph) : ℤ :=
  specMaxLevel g.Ml (match g.layers with | [] => 0 | l0 :: _ => layerSize l0)

/-! ## Observation predicates -/

/-- The returned node list is in ascending order of distance to the
query (the ordering property claimed for SearchResult). -/
def ascendingBy (dist : DistanceFunc) (q : Vec) : List (ℕ × Vec) → Bool
  | a :: b :: rest => F32.le (dist a.2 q) (dist b.2 q) && ascendingBy dist q (b :: rest)
  | _ => true

/-- There is an edge (in the given store) from node id i to node id j. -/
def edgeB (s : Store) (i j : ℕ) : Bool :=
  match getN s i with
  | some r => (r.nbrs.getD []).any (fun e => e.2 = some j)
  | none => false

/-- id is a member of the layer. -/
def memberB (l : LayerMap) (id : ℕ) : Bool := l.any (fun e => e.2 = id)

/-- The neighbor relation of every layer of the graph is symmetric and
pointer-loop-free over the layer's members (spec invariants 3 and 4). -/
def symmLoopFree (g : GGraph) : Bool :=
  g.layers.all (fun l => l.all (fun e1 => l.all (fun e2 =>
    (!(edgeB g.store e1.2 e2.2) || edgeB g.store e2.2 e1.2) &&
    !(edgeB g.store e1.2 e1.2))))

/-- Keys of an association list are strictly ascending. -/
def sortedKeys {α : Type} (l : List (ℕ × α)) : Prop :=
  List.Chain' (fun a b => a.1 < b.1) l

/-- Well-formed graph: layers and neighbor maps sorted, every member
resolves to a record with the member's key and a materialized neighbor
map, and every neighbor entry resolves to a member of the same layer
under the entry's key.  Freshly imported graphs and fresh Add-built
multi-node layers satisfy this; graphs that have seen deletions can
violate it (stale references). -/
def wfGraph (g : GGraph) : Prop :=
  ∀ l ∈ g.layers, sortedKeys l ∧
    ∀ e ∈ l, ∃ r, getN g.store e.2 = some r ∧ r.key = e.1 ∧
      ∃ nb, r.nbrs = some nb ∧ sortedKeys nb ∧
        ∀ p ∈ nb, p.2 = alookup p.1 l ∧ p.2 ≠ none ∧ p.1 ≠ e.1

/-! ## Concrete states used by the counterexamples and witnesses

Each literal below is reachable by the stated operation sequence; the
reachability is asserted (by evaluation) inside the theorems that use
it. -/

/-- Empty graph, M=6, Ml=1/2, EfSearch=20, three level-0 draws. -/
def gEmpty6 : GGraph :=
  { M := 6, Ml := 1/2, EfSearch := 20, rng := List.replicate 3 (9/10),
    store := [], layers := [] }

/-- Empty graph with two draws (source state for the one-node graph). -/
def gOneSrc : GGraph :=
  { M := 6, Ml := 1/2, EfSearch := 20, rng := List.replicate 2 (9/10),
    store := [], layers := [] }

/-- The one-node graph: Add (5, [1]) on gOneSrc. -/
def gOne : GGraph :=
  { M := 6, Ml := 1/2, EfSearch := 20, rng := [9/10],
    store := [{ key := 5, value := [1], nbrs := none }],
    layers := [[(5, 0)]] }

/-- The triangle graph: Add (1,[0]), (2,[4]), (3,[3]) on gEmpty6. -/
def gTri : GGraph :=
  { M := 6, Ml := 1/2, EfSearch := 20, rng := [],
    store :=
      [{ key := 1, value := [0], nbrs := some [(2, some 1), (3, some 2)] },
       { key := 2, value := [4], nbrs := some [(1, some 0), (3, some 2)] },
       { key := 3, value := [3], nbrs := some [(1, some 0), (2, some 1)] }],
    layers := [[(1, 0), (2, 1), (3, 2)]] }

/-- Empty graph, M=2, with four level-0 draws. -/
def gM2e4 : GGraph :=
  { M := 2, Ml := 1/2, EfSearch := 20, rng := List.replicate 4 (9/10),
    store := [], layers := [] }

/-- Add (1,[0]), (2,[1]), (3,[2]), (4,[3]) on gM2e4: the eviction during
the fourth insert replenishes node 1 with a one-directional edge to node
3. -/
def gQuad : GGraph :=
  { M := 2, Ml := 1/2, EfSearch := 20, rng := [],
    store :=
      [{ key := 1, value := [0], nbrs := some [(2, some 1), (3, some 2)] },
       { key := 2, value := [1], nbrs := some [(1, some 0), (3, some 2)] },
       { key := 3, value := [2], nbrs := some [(2, some 1), (4, some 3)] },
       { key := 4, value := [3], nbrs := some [(2, some 1), (3, some 2)] }],
    layers := [[(1, 0), (2, 1), (3, 2), (4, 3)]] }

/-- Intermediate states of the two Add chains (used to split the
evaluation of multi-Add runs into per-insert steps). -/
def gA1 : GGraph :=
  { M := 6, Ml := 1/2, EfSearch := 20, rng := [9/10, 9/10],
    store := [{ key := 1, value := [0], nbrs := none }],
    layers := [[(1, 0)]] }

/-- Second state of the gEmpty6 chain. -/
def gA2 : GGraph :=
  { M := 6, Ml := 1/2, EfSearch := 20, rng := [9/10],
    store :=
      [{ key := 1, value := [0], nbrs := some [(2, some 1)] },
       { key := 2, value := [4], nbrs := some [(1, some 0)] }],
    layers := [[(1, 0), (2, 1)]] }

/-- First state of the gM2e4 chain. -/
def gB1 : GGraph :=
  { M := 2, Ml := 1/2, EfSearch := 20, rng := [9/10, 9/10, 9/10],
    store := [{ key := 1, value := [0], nbrs := none }],
    layers := [[(1, 0)]] }

/-- Second state of the gM2e4 chain. -/
def gB2 : GGraph :=
  { M := 2, Ml := 1/2, EfSearch := 20, rng := [9/10, 9/10],
    store :=
      [{ key := 1, value := [0], nbrs := some [(2, some 1)] },
       { key := 2, value := [1], nbrs := some [(1, some 0)] }],
    layers := [[(1, 0), (2, 1)]] }

/-- The complete 3-node graph with M=2 (after the first three Adds of
the gM2e4 chain). -/
def gK3 : GGraph :=
  { M := 2, Ml := 1/2, EfSearch := 20, rng := [9/10],
    store :=
      [{ key := 1, value := [0], nbrs := some [(2, some 1), (3, some 2)] },
       { key := 2, value := [1], nbrs := some [(1, some 0), (3, some 2)] },
       { key := 3, value := [2], nbrs := some [(1, some 0), (2, some 1)] }],
    layers := [[(1, 0), (2, 1), (3, 2)]] }

/-- gK3 after Delete 1: members 2 and 3 keep stale references to the
deleted node (id 0). -/
def gK3d : GGraph :=
  { M := 2, Ml := 1/2, EfSearch := 20, rng := [9/10],
    store :=
      [{ key := 1, value := [0], nbrs := some [(2, some 1), (3, some 2)] },
       { key := 2, value := [1], nbrs := some [(1, some 0), (3, some 2)] },
       { key := 3, value := [2], nbrs := some [(1, some 0), (2, some 1)] }],
    layers := [[(2, 1), (3, 2)]] }

/-- The zero-value graph Import is run on in the round-trip test. -/
def gZero : GGraph :=
  { M := 0, Ml := 0, EfSearch := 0, rng := [], store := [], layers := [] }

/-- The graph obtained by exporting gK3d and importing into gZero: the
stale neighbor keys (key 1) re-import as nil pointers. -/
def gK3dImp : GGraph :=
  { M := 2, Ml := 1/2, EfSearch := 20, rng := [],
    store :=
      [{ key := 2, value := [1], nbrs := some [(1, none), (3, some 1)] },
       { key := 3, value := [2], nbrs := some [(1, none), (2, some 0)] }],
    layers := [[(2, 0), (3, 1)]] }

/-- A distance function that returns NaN on vectors with head 2
(modelling a metric that produces NaN on some pair, as the source
comment about NaN distances describes). -/
def nanDist : DistanceFunc :=
  fun a b => if a = [2] then F32.nan else EuclideanDistance a b

/-- A distance function that is not in the registry. -/
def constNan : DistanceFunc := fun _ _ => F32.nan

/-- Two isolated nodes about to be wired (the state of the second Add of
a two-node build, just before the neighborhood loop). -/
def sPair : Store :=
  [{ key := 1, value := [0], nbrs := some [] },
   { key := 2, value := [1], nbrs := some [] }]

/-- Store for the NaN-eviction counterexample: node 0 has neighbors with
distances 5 (key 11) and NaN (key 12); the new neighbor (key 13) has
distance 1. -/
def sC5 : Store :=
  [{ key := 10, value := [0], nbrs := some [(11, some 1), (12, some 2)] },
   { key := 11, value := [5], nbrs := some [(10, some 0)] },
   { key := 12, value := [2], nbrs := some [(10, some 0)] },
   { key := 13, value := [1], nbrs := none }]

/-- A two-layer graph with a broken inclusion invariant: the layer-1 copy
of key 10 references a stale node (key 30) that is a member of no layer.
Such stale references are reachable through Delete (see gQuad/gK3d); the
state is given directly to keep the run small. -/
def gBroken : GGraph :=
  { M := 2, Ml := 1/2, EfSearch := 20, rng := [1/4, 3/4],
    store :=
      [{ key := 10, value := [0], nbrs := some [(20, some 1)] },
       { key := 20, value := [1], nbrs := some [(10, some 0)] },
       { key := 10, value := [0], nbrs := some [(30, some 3)] },
       { key := 30, value := [5], nbrs := some [(10, some 2)] }],
    layers := [[(10, 0), (20, 1)], [(10, 2)]] }

/-- The search loop with explicit fuel (for the termination claim). -/
def searchFuel (fuel : ℕ) (s : Store) (start : Option ℕ) (k ef : ℕ)
    (target : Vec) (dist : DistanceFunc) : List SC :=
  match start with
  | none => []
  | some nId =>
    match getN s nId with
    | none => []
    | some n =>
      let c0 : SC := (nId, dist n.value target)
      let cands := pqPush c0 []
      let result :=
        match pqMin cands with
        | some mn => pqPush mn []
        | none => []
      searchLoop s k ef target dist fuel cands [n.key] result

/-! ## Auxiliary definitions for the proofs -/

/-- All keys occurring in neighbor maps of the store: the pool of keys
the search loop can still mark visited (apart from the entry's own key,
which is marked before the loop). -/
def allNbrKeys (s : Store) : Finset ℕ :=
  (s.flatMap (fun r => (r.nbrs.getD []).map Prod.fst)).toFinset

/-- Number of not-yet-visited keys. -/
def unvis (s : Store) (visited : List ℕ) : ℕ :=
  ((allNbrKeys s).filter (fun k => k ∉ visited)).card

/-- Loop measure: one candidate is popped per iteration and every push
consumes a fresh unvisited key, so this strictly decreases. -/
def sMeasure (s : Store) (cands : List SC) (visited : List ℕ) : ℕ :=
  cands.length + 2 * unvis s visited

/-- The neighbor relation of the store is symmetric over the store's
records (pointer-level, range-bounded). -/
def storeSymmB (s : Store) : Bool :=
  (List.range s.length).all (fun i => (List.range s.length).all (fun j =>
    !(edgeB s i j) || edgeB s j i))

/-- No record of the store points at itself. -/
def storeLoopFreeB (s : Store) : Bool :=
  (List.range s.length).all (fun i => !(edgeB s i i))

/-- Pointer-key coherence: every resolvable neighbor entry points at a
record whose key is the entry's key. -/
def cohB (s : Store) : Bool :=
  s.all (fun r => (r.nbrs.getD []).all (fun p =>
    match p.2 with
    | none => true
    | some id =>
      match getN s id with
      | some r2 => r2.key = p.1
      | none => false))

/-- Key-level view of a layer: the member keys in map order. -/
def layerKeys (g : GGraph) (i : ℕ) : List ℕ := (getLayer g i).map Prod.fst

/-- Key-level view of one member of a layer: its vector and the key list
of its neighbor map (pointers abstracted away). -/
def nodeView (g : GGraph) (i k : ℕ) : Option (Vec × List ℕ) :=
  match alookup k (getLayer g i) with
  | none => none
  | some nid =>
    match getN g.store nid with
    | none => none
    | some r => some (r.value, (r.nbrs.getD []).map Prod.fst)

/-- The parsed form of an exported layer whose members all resolve. -/
def layerImp (s : Store) (l : LayerMap) : List ImpNode :=
  l.map (fun e =>
    match getN s e.2 with
    | some r => { key := r.key, vec := r.value,
                  nbrKeys := (r.nbrs.getD []).map Prod.fst }
    | none => { key := 0, vec := [], nbrKeys := [] })

/-- The layer map Import rebuilds for one layer: the parsed keys paired
with their freshly allocated store indices. -/
def enumMap (base : ℕ) (ns : List ImpNode) : LayerMap :=
  ns.enum.map (fun p => (p.2.key, base + p.1))

/-- The records Import allocates for one layer (all neighbor keys
resolved against the layer's own rebuilt map). -/
def impRecs (base : ℕ) (ns : List ImpNode) : List NodeRec :=
  ns.enum.map (fun p =>
    { key := p.2.key, value := p.2.vec,
      nbrs := some (p.2.nbrKeys.map (fun k => (k, alookup k (enumMap base ns)))) })

/-- No NaN distance occurs in the sequence. -/
def noNaNL (l : List SC) : Bool := l.all (fun x => x.2 ≠ F32.nan)

/-- The head of the sequence (the peek-min position of the bounded
priority queue) carries a minimal distance among the elements. -/
def headMinB : List SC → Bool
  | [] => true
  | x :: xs => xs.all (fun y => F32.le x.2 y.2)

/-- Order embedding of non-NaN float values into an ordered set (used to
reason about the float comparisons; NaN is sent to the bottom, where it
is harmless because every statement using this carries a no-NaN
hypothesis). -/
def F32.toE : F32 → WithBot (WithTop ℚ)
  | F32.nan => ⊥
  | F32.ninf => ⊥
  | F32.pinf => some ⊤
  | F32.val q => some (some q)

/-! ## Theorems -/

/-! ### Priority-queue support lemmas -/

theorem pullMin_isSome (x : SC) (xs : List SC) : (pullMin (x :: xs)).isSome := by
  cases h : pullMin xs with
  | none => simp [pullMin, h]
  | some p =>
    obtain ⟨m, r⟩ := p
    by_cases hlt : F32.lt m.2 x.2 = true <;> simp [pullMin, h, hlt]

theorem pqFix_ne_nil {l : List SC} (h : l ≠ []) : pqFix l ≠ [] := by
  match l with
  | x :: xs =>
    unfold pqFix
    cases h2 : pullMin (x :: xs) with
    | none => have := pullMin_isSome x xs; rw [h2] at this; cases this
    | some p => simp

theorem pqPush_ne_nil (x : SC) (l : List SC) : pqPush x l ≠ [] := by
  unfold pqPush
  exact pqFix_ne_nil (by simp)

theorem pullMin_perm {l : List SC} {m : SC} {r : List SC}
    (h : pullMin l = some (m, r)) : l.Perm (m :: r) := by
  induction l generalizing m r with
  | nil => simp [pullMin] at h
  | cons x xs ih =>
    cases h2 : pullMin xs with
    | none =>
      rw [pullMin, h2] at h
      cases xs with
      | nil =>
        simp at h
        obtain ⟨h3, h4⟩ := h
        subst h3; subst h4
        exact List.Perm.refl _
      | cons y ys =>
        exact absurd h2
          (by have := pullMin_isSome y ys; intro hc; rw [hc] at this; cases this)
    | some p =>
      obtain ⟨m', r'⟩ := p
      rw [pullMin, h2] at h
      simp only [] at h
      by_cases hlt : F32.lt m'.2 x.2 = true
      · rw [if_pos hlt] at h
        simp only [Option.some.injEq, Prod.mk.injEq] at h
        obtain ⟨h3, h4⟩ := h
        subst h3; subst h4
        exact ((ih h2).cons x).trans (List.Perm.swap _ _ _)
      · rw [if_neg hlt] at h
        simp only [Option.some.injEq, Prod.mk.injEq] at h
        obtain ⟨h3, h4⟩ := h
        subst h3; subst h4
        exact List.Perm.refl _

theorem pullMax_isSome (x : SC) (xs : List SC) : (pullMax (x :: xs)).isSome := by
  cases h : pullMax xs with
  | none => simp [pullMax, h]
  | some p =>
    obtain ⟨m, r⟩ := p
    by_cases hlt : F32.gt m.2 x.2 = true <;> simp [pullMax, h, hlt]

theorem pullMax_perm {l : List SC} {m : SC} {r : List SC}
    (h : pullMax l = some (m, r)) : l.Perm (m :: r) := by
  induction l generalizing m r with
  | nil => simp [pullMax] at h
  | cons x xs ih =>
    cases h2 : pullMax xs with
    | none =>
      rw [pullMax, h2] at h
      cases xs with
      | nil =>
        simp at h
        obtain ⟨h3, h4⟩ := h
        subst h3; subst h4
        exact List.Perm.refl _
      | cons y ys =>
        exact absurd h2
          (by have := pullMax_isSome y ys; intro hc; rw [hc] at this; cases this)
    | some p =>
      obtain ⟨m', r'⟩ := p
      rw [pullMax, h2] at h
      simp only [] at h
      by_cases hlt : F32.gt m'.2 x.2 = true
      · rw [if_pos hlt] at h
        simp only [Option.some.injEq, Prod.mk.injEq] at h
        obtain ⟨h3, h4⟩ := h
        subst h3; subst h4
        exact ((ih h2).cons x).trans (List.Perm.swap _ _ _)
      · rw [if_neg hlt] at h
        simp only [Option.some.injEq, Prod.mk.injEq] at h
        obtain ⟨h3, h4⟩ := h
        subst h3; subst h4
        exact List.Perm.refl _

/-- pqFix permutes its input. -/
theorem pqFix_perm (l : List SC) : (pqFix l).Perm l := by
  unfold pqFix
  cases h : pullMin l with
  | none =>
    cases l with
    | nil => exact List.Perm.refl _
    | cons x xs =>
      exact absurd h
        (by have := pullMin_isSome x xs; intro hc; rw [hc] at this; cases this)
  | some p =>
    obtain ⟨m, r⟩ := p
    exact (pullMin_perm h).symm

/-- pqPush appends exactly the pushed element (up to permutation). -/
theorem pqPush_perm (x : SC) (l : List SC) : (pqPush x l).Perm (x :: l) := by
  unfold pqPush
  exact (pqFix_perm _).trans (List.perm_append_singleton ..)

/-- Length facts. -/
theorem pqFix_length (l : List SC) : (pqFix l).length = l.length :=
  (pqFix_perm l).length_eq

theorem pqPush_length (x : SC) (l : List SC) : (pqPush x l).length = l.length + 1 := by
  have := (pqPush_perm x l).length_eq
  simpa using this

theorem pqPopLast_length_le (l : List SC) : (pqPopLast l).length ≤ l.length := by
  unfold pqPopLast
  cases h : pullMax l with
  | none => simp
  | some p =>
    obtain ⟨m, r⟩ := p
    have := (pullMax_perm h).length_eq
    simp only [List.length_cons] at this
    rw [pqFix_length]
    omega

/-- Membership in a pqPush output. -/
theorem mem_pqPush {y x : SC} {l : List SC} (h : y ∈ pqPush x l) :
    y = x ∨ y ∈ l := by
  have := (pqPush_perm x l).mem_iff.mp h
  simpa [eq_comm] using this

/-- Membership in a pqPopLast output. -/
theorem mem_pqPopLast {y : SC} {l : List SC} (h : y ∈ pqPopLast l) : y ∈ l := by
  unfold pqPopLast at h
  cases h2 : pullMax l with
  | none => rw [h2] at h; cases h
  | some p =>
    obtain ⟨m, r⟩ := p
    rw [h2] at h
    exact (pullMax_perm h2).mem_iff.mpr (List.mem_cons_of_mem _ ((pqFix_perm r).mem_iff.mp h))

/-- Membership in a pqFix output. -/
theorem mem_pqFix {y : SC} {l : List SC} (h : y ∈ pqFix l) : y ∈ l :=
  (pqFix_perm l).mem_iff.mp h

/-! ### Head-minimality of the queue sequence (C2) -/

theorem F32_le_refl {a : F32} (h : a ≠ F32.nan) : F32.le a a = true := by
  cases a with
  | nan => exact absurd rfl h
  | ninf => rfl
  | pinf => rfl
  | val q => simp [F32.le]

theorem F32_le_of_lt {a b : F32} (h : F32.lt a b = true) : F32.le a b = true := by
  cases a <;> cases b <;> simp_all [F32.lt, F32.le] <;> linarith

theorem F32_le_of_not_lt {a b : F32} (ha : a ≠ F32.nan) (hb : b ≠ F32.nan)
    (h : F32.lt a b = false) : F32.le b a = true := by
  cases a <;> cases b <;> simp_all [F32.lt, F32.le] <;> linarith

theorem F32_le_trans {a b c : F32} (h1 : F32.le a b = true)
    (h2 : F32.le b c = true) : F32.le a c = true := by
  cases a <;> cases b <;> cases c <;> simp_all [F32.le] <;> linarith

theorem noNaNL_mem {l : List SC} (hn : noNaNL l = true) {y : SC} (hy : y ∈ l) :
    y.2 ≠ F32.nan := by
  unfold noNaNL at hn
  rw [List.all_eq_true] at hn
  simpa using hn y hy

theorem noNaNL_of_subset {l l' : List SC} (hsub : ∀ y ∈ l', y ∈ l)
    (hn : noNaNL l = true) : noNaNL l' = true := by
  unfold noNaNL
  rw [List.all_eq_true]
  intro y hy
  exact decide_eq_true (noNaNL_mem hn (hsub y hy))

theorem pullMin_mem {l : List SC} {m : SC} {r : List SC}
    (h : pullMin l = some (m, r)) : m ∈ l :=
  (pullMin_perm h).mem_iff.mpr (List.mem_cons_self m r)

theorem pullMin_min {l : List SC} (hn : noNaNL l = true) :
    ∀ {m : SC} {r : List SC}, pullMin l = some (m, r) →
      ∀ y ∈ l, F32.le m.2 y.2 = true := by
  induction l with
  | nil => intro m r h; simp [pullMin] at h
  | cons x xs ih =>
    intro m r h
    have hx : x.2 ≠ F32.nan := noNaNL_mem hn (List.mem_cons_self x xs)
    have hxs : noNaNL xs = true :=
      noNaNL_of_subset (fun y hy => List.mem_cons_of_mem x hy) hn
    rw [pullMin] at h
    cases h2 : pullMin xs with
    | none =>
      rw [h2] at h
      simp only [Option.some.injEq, Prod.mk.injEq] at h
      obtain ⟨hm, hr⟩ := h
      subst hm
      have hxse : xs = [] := by
        cases xs with
        | nil => rfl
        | cons a as =>
          have := pullMin_isSome a as
          rw [h2] at this
          simp at this
      subst hxse
      intro y hy
      simp at hy
      subst hy
      exact F32_le_refl hx
    | some p =>
      obtain ⟨m', r'⟩ := p
      rw [h2] at h
      simp only [] at h
      have hm' : m'.2 ≠ F32.nan := noNaNL_mem hxs (pullMin_mem h2)
      by_cases hlt : F32.lt m'.2 x.2 = true
      · rw [if_pos hlt] at h
        simp only [Option.some.injEq, Prod.mk.injEq] at h
        obtain ⟨hm, hr⟩ := h
        subst hm
        intro y hy
        rcases List.mem_cons.mp hy with hyx | hyxs
        · subst hyx; exact F32_le_of_lt hlt
        · exact ih hxs h2 y hyxs
      · rw [if_neg hlt] at h
        simp only [Option.some.injEq, Prod.mk.injEq] at h
        obtain ⟨hm, hr⟩ := h
        subst hm
        intro y hy
        rcases List.mem_cons.mp hy with hyx | hyxs
        · subst hyx; exact F32_le_refl hx
        · have hle : F32.le x.2 m'.2 = true :=
            F32_le_of_not_lt hm' hx (Bool.eq_false_iff.mpr hlt)
          exact F32_le_trans hle (ih hxs h2 y hyxs)

theorem headMinB_pqFix {l : List SC} (hn : noNaNL l = true) :
    headMinB (pqFix l) = true := by
  unfold pqFix
  cases h : pullMin l with
  | none => rfl
  | some p =>
    obtain ⟨m, r⟩ := p
    show headMinB (m :: r) = true
    unfold headMinB
    rw [List.all_eq_true]
    intro y hy
    exact pullMin_min hn h y ((pullMin_perm h).mem_iff.mpr (List.mem_cons_of_mem m hy))

theorem noNaNL_pqPush {x : SC} {l : List SC} (hx : x.2 ≠ F32.nan)
    (hn : noNaNL l = true) : noNaNL (pqPush x l) = true := by
  unfold noNaNL
  rw [List.all_eq_true]
  intro y hy
  rcases mem_pqPush hy with h | h
  · subst h; exact decide_eq_true hx
  · exact decide_eq_true (noNaNL_mem hn h)

theorem noNaNL_pqPopLast {l : List SC} (hn : noNaNL l = true) :
    noNaNL (pqPopLast l) = true :=
  noNaNL_of_subset (fun y hy => mem_pqPopLast hy) hn

theorem headMinB_pqPush {x : SC} {l : List SC} (hx : x.2 ≠ F32.nan)
    (hn : noNaNL l = true) : headMinB (pqPush x l) = true := by
  unfold pqPush
  apply headMinB_pqFix
  unfold noNaNL at hn ⊢
  rw [List.all_eq_true] at hn ⊢
  intro y hy
  rcases List.mem_append.mp hy with h | h
  · exact hn y h
  · simp only [List.mem_singleton] at h
    subst h
    exact decide_eq_true hx

theorem headMinB_pqPopLast {l : List SC} (hn : noNaNL l = true) :
    headMinB (pqPopLast l) = true := by
  unfold pqPopLast
  cases h : pullMax l with
  | none => rfl
  | some p =>
    obtain ⟨m, r⟩ := p
    show headMinB (pqFix r) = true
    exact headMinB_pqFix (noNaNL_of_subset
      (fun y hy => (pullMax_perm h).mem_iff.mpr (List.mem_cons_of_mem m hy)) hn)

theorem stepNbr_resInv (s : Store) (k ef : ℕ) (target : Vec)
    (dist : DistanceFunc) (hd : ∀ a b, dist a b ≠ F32.nan)
    (st : List SC × List ℕ × List SC × Bool) (e : ℕ × Option ℕ)
    (hn : noNaNL st.2.2.1 = true) (hm : headMinB st.2.2.1 = true) :
    noNaNL (stepNbr s k ef target dist st e).2.2.1 = true ∧
    headMinB (stepNbr s k ef target dist st e).2.2.1 = true := by
  obtain ⟨cands, visited, result, improved⟩ := st
  rcases e with ⟨ek, ev⟩
  cases ev with
  | none => exact ⟨hn, hm⟩
  | some nid =>
    dsimp only [stepNbr]
    by_cases hv : visited.contains ek
    · simp only [if_pos hv]
      exact ⟨hn, hm⟩
    · simp only [if_neg hv]
      cases hg : getN s nid with
      | none => exact ⟨hn, hm⟩
      | some nb =>
        dsimp only
        by_cases hlen : result.length < k
        · simp only [if_pos hlen]
          exact ⟨noNaNL_pqPush (hd _ _) hn, headMinB_pqPush (hd _ _) hn⟩
        · simp only [if_neg hlen]
          cases hmx : pqMax result with
          | none => exact ⟨hn, hm⟩
          | some mx =>
            dsimp only
            by_cases hlt : F32.lt (dist nb.value target) mx.2 = true
            · simp only [if_pos hlt]
              exact ⟨noNaNL_pqPush (hd _ _) (noNaNL_pqPopLast hn),
                     headMinB_pqPush (hd _ _) (noNaNL_pqPopLast hn)⟩
            · simp only [if_neg hlt]
              exact ⟨hn, hm⟩

theorem foldl_stepNbr_resInv (s : Store) (k ef : ℕ) (target : Vec)
    (dist : DistanceFunc) (hd : ∀ a b, dist a b ≠ F32.nan)
    (entries : List (ℕ × Option ℕ)) :
    ∀ st : List SC × List ℕ × List SC × Bool,
      noNaNL st.2.2.1 = true → headMinB st.2.2.1 = true →
      noNaNL ((entries.foldl (stepNbr s k ef target dist) st)).2.2.1 = true ∧
      headMinB ((entries.foldl (stepNbr s k ef target dist) st)).2.2.1 = true := by
  induction entries with
  | nil => intro st hn hm; exact ⟨hn, hm⟩
  | cons e rest ih =>
    intro st hn hm
    have h1 := stepNbr_resInv s k ef target dist hd st e hn hm
    simp only [List.foldl_cons]
    exact ih (stepNbr s k ef target dist st e) h1.1 h1.2

theorem searchLoop_resInv (s : Store) (k ef : ℕ) (target : Vec)
    (dist : DistanceFunc) (hd : ∀ a b, dist a b ≠ F32.nan) :
    ∀ (fuel : ℕ) (cands : List SC) (visited : List ℕ) (result : List SC),
      noNaNL result = true → headMinB result = true →
      headMinB (searchLoop s k ef target dist fuel cands visited result) = true := by
  intro fuel
  induction fuel with
  | zero => intro _ _ result hn hm; exact hm
  | succ fuel ih =>
    intro cands visited result hn hm
    cases cands with
    | nil => exact hm
    | cons c rest =>
      rw [searchLoop.eq_def]
      dsimp only
      cases hg : getN s c.1 with
      | none => exact ih _ _ _ hn hm
      | some cur =>
        dsimp only
        cases hnb : cur.nbrs with
        | none => exact ih _ _ _ hn hm
        | some entries =>
          dsimp only
          have hf := foldl_stepNbr_resInv s k ef target dist hd entries
            (pqFix rest, visited, result, false) hn hm
          rcases hfe : entries.foldl (stepNbr s k ef target dist)
            (pqFix rest, visited, result, false) with ⟨c', v', r', i'⟩
          rw [hfe] at hf
          dsimp only at hf ⊢
          split
          · exact hf.2
          · exact ih _ _ _ hf.1 hf.2

/-! ### The worst-neighbor scan picks a maximal distance (C5) -/

theorem F32_ninf_le {b : F32} (hb : b ≠ F32.nan) : F32.le F32.ninf b = true := by
  cases b with
  | nan => exact absurd rfl hb
  | ninf => rfl
  | pinf => rfl
  | val q => rfl

theorem worstStep_fold_max (s : Store) (nval : Vec) (dist : DistanceFunc) :
    ∀ (entries : List (ℕ × Option ℕ)) (acc : F32 × Option (ℕ × ℕ)),
      (∀ e ∈ entries, ∀ id rec0, e.2 = some id → getN s id = some rec0 →
        dist rec0.value nval ≠ F32.nan) →
      acc.1 ≠ F32.nan →
      (acc.2 = none → acc.1 = F32.ninf) →
      (∀ id0 k0, acc.2 = some (id0, k0) →
        ∃ r0, getN s id0 = some r0 ∧ k0 = r0.key ∧ acc.1 = dist r0.value nval) →
      (entries.foldl (worstStep s nval dist) acc).1 ≠ F32.nan ∧
      F32.le acc.1 (entries.foldl (worstStep s nval dist) acc).1 = true ∧
      (∀ id0 k0, (entries.foldl (worstStep s nval dist) acc).2 = some (id0, k0) →
        ∃ r0, getN s id0 = some r0 ∧ k0 = r0.key ∧
          (entries.foldl (worstStep s nval dist) acc).1 = dist r0.value nval) ∧
      (∀ e ∈ entries, ∀ id rec0, e.2 = some id → getN s id = some rec0 →
        F32.le (dist rec0.value nval)
          (entries.foldl (worstStep s nval dist) acc).1 = true) := by
  intro entries
  induction entries with
  | nil =>
    intro acc hd hA hN hS
    refine ⟨hA, F32_le_refl hA, hS, ?_⟩
    intro e he
    simp at he
  | cons e rest ih =>
    intro acc hd hA hN hS
    have hdrest : ∀ e ∈ rest, ∀ id rec0, e.2 = some id → getN s id = some rec0 →
        dist rec0.value nval ≠ F32.nan :=
      fun e he => hd e (List.mem_cons_of_mem _ he)
    simp only [List.foldl_cons]
    rcases e with ⟨ek, ev⟩
    cases ev with
    | none =>
      have hstep : worstStep s nval dist acc (ek, none) = acc := rfl
      rw [hstep]
      obtain ⟨h1, h2, h3, h4⟩ := ih acc hdrest hA hN hS
      refine ⟨h1, h2, h3, ?_⟩
      intro e he id rec0 hid hrec
      rcases List.mem_cons.mp he with rfl | hmem
      · simp at hid
      · exact h4 e hmem id rec0 hid hrec
    | some nid =>
      cases hg : getN s nid with
      | none =>
        have hstep : worstStep s nval dist acc (ek, some nid) = acc := by
          simp [worstStep, hg]
        rw [hstep]
        obtain ⟨h1, h2, h3, h4⟩ := ih acc hdrest hA hN hS
        refine ⟨h1, h2, h3, ?_⟩
        intro e he id rec0 hid hrec
        rcases List.mem_cons.mp he with rfl | hmem
        · have hid' : id = nid := by simpa using hid.symm
          subst hid'
          rw [hg] at hrec
          cases hrec
        · exact h4 e hmem id rec0 hid hrec
      | some rec0 =>
        have hdn : dist rec0.value nval ≠ F32.nan :=
          hd (ek, some nid) (List.mem_cons_self _ _) nid rec0 rfl hg
        by_cases hc : (F32.gt (dist rec0.value nval) acc.1 || acc.2.isNone) = true
        · have hstep : worstStep s nval dist acc (ek, some nid) =
              (dist rec0.value nval, some (nid, rec0.key)) := by
            simp [worstStep, hg, hc]
          rw [hstep]
          have hS' : ∀ id0 k0,
              ((dist rec0.value nval, some (nid, rec0.key)) :
                F32 × Option (ℕ × ℕ)).2 = some (id0, k0) →
              ∃ r0, getN s id0 = some r0 ∧ k0 = r0.key ∧
                ((dist rec0.value nval, some (nid, rec0.key)) :
                  F32 × Option (ℕ × ℕ)).1 = dist r0.value nval := by
            intro id0 k0 hx
            simp only [Option.some.injEq, Prod.mk.injEq] at hx
            obtain ⟨h5, h6⟩ := hx
            subst h5
            subst h6
            exact ⟨rec0, hg, rfl, rfl⟩
          obtain ⟨h1, h2, h3, h4⟩ := ih (dist rec0.value nval, some (nid, rec0.key))
            hdrest hdn (by intro hx; simp at hx) hS'
          have hle : F32.le acc.1 (dist rec0.value nval) = true := by
            rcases Bool.or_eq_true_iff.mp hc with hgt | hnone
            · exact F32_le_of_lt hgt
            · rw [hN (Option.isNone_iff_eq_none.mp hnone)]
              exact F32_ninf_le hdn
          refine ⟨h1, F32_le_trans hle h2, h3, ?_⟩
          intro e he id rec1 hid hrec
          rcases List.mem_cons.mp he with rfl | hmem
          · have hid' : id = nid := by simpa using hid.symm
            subst hid'
            rw [hg] at hrec
            injection hrec with hx
            subst hx
            exact h2
          · exact h4 e hmem id rec1 hid hrec
        · have hc' : (F32.gt (dist rec0.value nval) acc.1 || acc.2.isNone) = false :=
            Bool.eq_false_iff.mpr hc
          have hstep : worstStep s nval dist acc (ek, some nid) = acc := by
            simp [worstStep, hg, hc']
          rw [hstep]
          obtain ⟨h1, h2, h3, h4⟩ := ih acc hdrest hA hN hS
          have hgtf : F32.gt (dist rec0.value nval) acc.1 = false :=
            (Bool.or_eq_false_iff.mp hc').1
          have hled : F32.le (dist rec0.value nval) acc.1 = true :=
            F32_le_of_not_lt hA hdn hgtf
          refine ⟨h1, h2, h3, ?_⟩
          intro e he id rec1 hid hrec
          rcases List.mem_cons.mp he with rfl | hmem
          · have hid' : id = nid := by simpa using hid.symm
            subst hid'
            rw [hg] at hrec
            injection hrec with hx
            subst hx
            exact F32_le_trans hled h2
          · exact h4 e hmem id rec1 hid hrec

/-! ### Non-emptiness of the search result -/

theorem stepNbr_result_ne_nil (s : Store) (k ef : ℕ) (target : Vec)
    (dist : DistanceFunc) (st : List SC × List ℕ × List SC × Bool)
    (e : ℕ × Option ℕ) (h : st.2.2.1 ≠ []) :
    (stepNbr s k ef target dist st e).2.2.1 ≠ [] := by
  obtain ⟨cands, visited, result, improved⟩ := st
  rcases e with ⟨ek, ev⟩
  cases ev with
  | none => exact h
  | some nid =>
    dsimp only [stepNbr]
    repeat' split
    all_goals dsimp only
    all_goals first
      | exact h
      | exact pqPush_ne_nil _ _

theorem foldl_stepNbr_result_ne_nil (s : Store) (k ef : ℕ) (target : Vec)
    (dist : DistanceFunc) (entries : List (ℕ × Option ℕ))
    (st : List SC × List ℕ × List SC × Bool) (h : st.2.2.1 ≠ []) :
    (entries.foldl (stepNbr s k ef target dist) st).2.2.1 ≠ [] := by
  induction entries generalizing st with
  | nil => exact h
  | cons e rest ih =>
    exact ih _ (stepNbr_result_ne_nil s k ef target dist st e h)

theorem searchLoop_result_ne_nil (s : Store) (k ef : ℕ) (target : Vec)
    (dist : DistanceFunc) (fuel : ℕ) (cands : List SC) (visited : List ℕ)
    (result : List SC) (h : result ≠ []) :
    searchLoop s k ef target dist fuel cands visited result ≠ [] := by
  induction fuel generalizing cands visited result with
  | zero => simpa [searchLoop] using h
  | succ fuel ih =>
    rw [searchLoop.eq_def]
    cases cands with
    | nil => simpa using h
    | cons c rest =>
      dsimp only
      cases hg : getN s c.1 with
      | none => exact ih _ _ _ h
      | some cur =>
        dsimp only
        cases hn : cur.nbrs with
        | none => exact ih _ _ _ h
        | some entries =>
          dsimp only
          have hf := foldl_stepNbr_result_ne_nil s k ef target dist entries
            (pqFix rest, visited, result, false) h
          rcases hfold : entries.foldl (stepNbr s k ef target dist)
            (pqFix rest, visited, result, false) with ⟨c', v', r', i'⟩
          rw [hfold] at hf
          dsimp only
          split
          · exact hf
          · exact ih _ _ _ hf

/-- C9 (amended): the greedy layer search on a resolvable (non-nil)
search point always returns a non-empty result: the result set starts
with the entry node and pop-max is always followed by a push, so the
Internal branch of Add cannot fire for a resolvable search point. -/
theorem search_nonempty (s : Store) (nId : ℕ) (k ef : ℕ) (target : Vec)
    (dist : DistanceFunc) (r : NodeRec) (h : getN s nId = some r) :
    searchF s (some nId) k ef target dist ≠ [] := by
  unfold searchF
  dsimp only
  rw [h]
  dsimp only
  cases hm : pqMin (pqPush (nId, dist r.value target) []) with
  | none =>
    exact absurd hm (by simp [pqMin, pqPush, pqFix, pullMin])
  | some mn =>
    exact searchLoop_result_ne_nil _ _ _ _ _ _ _ _ _ (pqPush_ne_nil _ _)

/-- Witness for the amended C9 at a concrete input. -/
theorem search_nonempty_witness :
    getN gOne.store 0 = some { key := 5, value := [1], nbrs := none } ∧
    searchF gOne.store (some 0) 6 20 [2] EuclideanDistance ≠ [] :=
  ⟨by decide,
   search_nonempty gOne.store 0 6 20 [2] EuclideanDistance
     { key := 5, value := [1], nbrs := none } (by decide)⟩

/-! ### Termination of the search loop (C10) -/

theorem unvis_cons_le (s : Store) (k : ℕ) (visited : List ℕ) :
    unvis s (k :: visited) ≤ unvis s visited := by
  unfold unvis
  apply Finset.card_le_card
  intro a ha
  simp only [Finset.mem_filter, List.mem_cons] at ha ⊢
  exact ⟨ha.1, fun hc => ha.2 (Or.inr hc)⟩

theorem unvis_cons_of_mem {s : Store} {k : ℕ} {visited : List ℕ}
    (hk : k ∈ allNbrKeys s) (hv : k ∉ visited) :
    unvis s (k :: visited) + 1 = unvis s visited := by
  unfold unvis
  have he : (allNbrKeys s).filter (fun x => x ∉ k :: visited) =
      ((allNbrKeys s).filter (fun x => x ∉ visited)).erase k := by
    ext a
    simp only [Finset.mem_filter, Finset.mem_erase, List.mem_cons]
    constructor
    · rintro ⟨h1, h2⟩
      exact ⟨fun hc => h2 (Or.inl hc), h1, fun hc => h2 (Or.inr hc)⟩
    · rintro ⟨h1, h2, h3⟩
      exact ⟨h2, fun hc => hc.elim h1 h3⟩
  rw [he, Finset.card_erase_of_mem (by simp [hk, hv])]
  have hpos : 0 < ((allNbrKeys s).filter (fun x => x ∉ visited)).card :=
    Finset.card_pos.mpr ⟨k, by simp [hk, hv]⟩
  omega

theorem stepNbr_measure (s : Store) (k ef : ℕ) (target : Vec)
    (dist : DistanceFunc) (st : List SC × List ℕ × List SC × Bool)
    (e : ℕ × Option ℕ) (hE : e.1 ∈ allNbrKeys s) :
    sMeasure s (stepNbr s k ef target dist st e).1
        (stepNbr s k ef target dist st e).2.1 ≤ sMeasure s st.1 st.2.1 := by
  obtain ⟨cands, visited, result, improved⟩ := st
  rcases e with ⟨ek, ev⟩
  cases ev with
  | none => exact le_refl _
  | some nid =>
    dsimp only [stepNbr]
    by_cases hv : visited.contains ek
    · simp only [if_pos hv]
      exact le_refl _
    · simp only [if_neg hv]
      have hvm : ek ∉ visited := by simpa using hv
      have hkm : ek ∈ allNbrKeys s := hE
      have hu := unvis_cons_of_mem (s := s) hkm hvm
      cases hg : getN s nid with
      | none =>
        dsimp only [sMeasure]
        have := unvis_cons_le s ek visited
        omega
      | some nb =>
        dsimp only [sMeasure]
        have hlen : (if ef < (pqPush (nid, dist nb.value target) cands).length then
            pqPopLast (pqPush (nid, dist nb.value target) cands)
          else pqPush (nid, dist nb.value target) cands).length ≤ cands.length + 1 := by
          split
          · exact le_trans (pqPopLast_length_le _) (pqPush_length _ _).le
          · exact (pqPush_length _ _).le
        omega

theorem foldl_stepNbr_measure (s : Store) (k ef : ℕ) (target : Vec)
    (dist : DistanceFunc) (entries : List (ℕ × Option ℕ))
    (hE : ∀ p ∈ entries, p.1 ∈ allNbrKeys s) :
    ∀ st : List SC × List ℕ × List SC × Bool,
      sMeasure s (entries.foldl (stepNbr s k ef target dist) st).1
          (entries.foldl (stepNbr s k ef target dist) st).2.1 ≤
        sMeasure s st.1 st.2.1 := by
  induction entries with
  | nil => intro st; exact le_refl _
  | cons e rest ih =>
    intro st
    have h1 := stepNbr_measure s k ef target dist st e (hE e (by simp))
    have h2 := ih (fun p hp => hE p (by simp [hp])) (stepNbr s k ef target dist st e)
    simp only [List.foldl_cons]
    omega

theorem nbrKeys_sub (s : Store) (i : ℕ) (cur : NodeRec) (h : getN s i = some cur) :
    ∀ p ∈ cur.nbrs.getD [], p.1 ∈ allNbrKeys s := by
  intro p hp
  have hcur : cur ∈ s := by
    unfold getN at h
    exact List.get?_mem h
  unfold allNbrKeys
  rw [List.mem_toFinset]
  exact List.mem_flatMap.mpr ⟨cur, hcur, List.mem_map.mpr ⟨p, hp, rfl⟩⟩

theorem searchLoop_stable (s : Store) (k ef : ℕ) (target : Vec)
    (dist : DistanceFunc) :
    ∀ fuel (cands : List SC) (visited : List ℕ) (result : List SC),
      sMeasure s cands visited ≤ fuel →
      searchLoop s k ef target dist (fuel + 1) cands visited result =
        searchLoop s k ef target dist fuel cands visited result := by
  intro fuel
  induction fuel with
  | zero =>
    intro cands visited result h
    have hc : cands = [] := by
      have := Nat.le_zero.mp h
      unfold sMeasure at this
      cases cands with
      | nil => rfl
      | cons a b => simp at this
    subst hc
    rfl
  | succ fuel ih =>
    intro cands visited result h
    cases cands with
    | nil => rfl
    | cons c rest =>
      rw [searchLoop.eq_def]
      conv_rhs => rw [searchLoop.eq_def]
      dsimp only
      have hrest : sMeasure s (pqFix rest) visited ≤ fuel + 1 := by
        unfold sMeasure at h ⊢
        rw [pqFix_length]
        simp only [List.length_cons] at h
        omega
      cases hg : getN s c.1 with
      | none =>
        exact ih (pqFix rest) visited result (by
          unfold sMeasure at h ⊢
          rw [pqFix_length]
          simp only [List.length_cons] at h
          omega)
      | some cur =>
        dsimp only
        cases hn : cur.nbrs with
        | none =>
          exact ih (pqFix rest) visited result (by
            unfold sMeasure at h ⊢
            rw [pqFix_length]
            simp only [List.length_cons] at h
            omega)
        | some entries =>
          dsimp only
          have hE : ∀ p ∈ entries, p.1 ∈ allNbrKeys s := by
            have := nbrKeys_sub s c.1 cur hg
            rw [hn] at this
            simpa using this
          have hfold := foldl_stepNbr_measure s k ef target dist entries hE
            (pqFix rest, visited, result, false)
          rcases hfoldEq : entries.foldl (stepNbr s k ef target dist)
            (pqFix rest, visited, result, false) with ⟨c', v', r', i'⟩
          rw [hfoldEq] at hfold
          dsimp only at hfold ⊢
          have hm' : sMeasure s c' v' ≤ fuel := by
            have : sMeasure s (pqFix rest) visited ≤ fuel + 1 - 1 := by
              unfold sMeasure at h ⊢
              rw [pqFix_length]
              simp only [List.length_cons] at h
              omega
            omega
          split
          · rfl
          · exact ih c' v' r' hm'

theorem searchLoop_add (s : Store) (k ef : ℕ) (target : Vec)
    (dist : DistanceFunc) (cands : List SC) (visited : List ℕ)
    (result : List SC) (m : ℕ) (h : sMeasure s cands visited ≤ m) :
    ∀ j, searchLoop s k ef target dist (m + j) cands visited result =
      searchLoop s k ef target dist m cands visited result := by
  intro j
  induction j with
  | zero => rfl
  | succ j ih =>
    have := searchLoop_stable s k ef target dist (m + j) cands visited result
      (le_trans h (Nat.le_add_right m j))
    rw [← ih]
    exact this

theorem nbrKeys_length (s : Store) :
    (s.flatMap (fun r => (r.nbrs.getD []).map Prod.fst)).length = totalNbrs s := by
  induction s with
  | nil => rfl
  | cons a t ih =>
    simp only [List.flatMap_cons, List.length_append, List.length_map, totalNbrs,
      List.map_cons, List.sum_cons] at ih ⊢
    omega

theorem totalNbrs_bound (s : Store) : (allNbrKeys s).card ≤ totalNbrs s := by
  unfold allNbrKeys
  rw [← nbrKeys_length s]
  exact List.toFinset_card_le _

/-- C10: the greedy layer search terminates: the visited map admits each
key at most once into the frontier, so the loop pops at most one
candidate per neighbor-map entry of the store (plus slack for the entry
node); any fuel at least searchBound yields the same, converged result. -/
theorem search_terminates (fuel : ℕ) (s : Store) (start : Option ℕ)
    (k ef : ℕ) (target : Vec) (dist : DistanceFunc)
    (h : searchBound s ≤ fuel) :
    searchFuel fuel s start k ef target dist = searchF s start k ef target dist := by
  unfold searchFuel searchF
  cases start with
  | none => rfl
  | some nId =>
    dsimp only
    cases hg : getN s nId with
    | none => rfl
    | some n =>
      dsimp only
      have hm : sMeasure s (pqPush (nId, dist n.value target) []) [n.key] ≤
          searchBound s := by
        unfold sMeasure searchBound
        rw [pqPush_length]
        simp only [List.length_nil]
        have h1 : unvis s [n.key] ≤ (allNbrKeys s).card :=
          Finset.card_le_card (Finset.filter_subset _ _)
        have h2 := totalNbrs_bound s
        omega
      obtain ⟨j, hj⟩ : ∃ j, fuel = searchBound s + j :=
        ⟨fuel - searchBound s, by omega⟩
      rw [hj]
      exact searchLoop_add s k ef target dist _ _ _ (searchBound s) hm j

/-- Witness for C10 at a concrete input. -/
theorem search_terminates_witness :
    searchBound gTri.store ≤ 20 ∧
    searchFuel 20 gTri.store (some 0) 2 20 [1] EuclideanDistance =
      searchF gTri.store (some 0) 2 20 [1] EuclideanDistance :=
  ⟨by decide,
   search_terminates 20 gTri.store (some 0) 2 20 [1] EuclideanDistance (by decide)⟩

/-- C2 (amended): under a distance function that never yields NaN, the
first element of the list returned by the greedy layer search minimizes
the distance to the query among the returned elements; the rest of the
list is the raw backing sequence of the bounded result set and is not
sorted. -/
theorem search_head_min (s : Store) (start : Option ℕ) (k ef : ℕ)
    (target : Vec) (dist : DistanceFunc) (hd : ∀ a b, dist a b ≠ F32.nan) :
    headMinB (searchF s start k ef target dist) = true := by
  unfold searchF
  cases start with
  | none => rfl
  | some nId =>
    dsimp only
    cases hg : getN s nId with
    | none => rfl
    | some n =>
      dsimp only
      refine searchLoop_resInv s k ef target dist hd _ _ _ _ ?_ ?_
      · exact noNaNL_pqPush (hd _ _) rfl
      · exact headMinB_pqPush (hd _ _) rfl

/-- Witness for C2 (amended) at a concrete input: the Euclidean distance
never yields NaN, and the head of the search result on the triangle graph
carries its minimal distance. -/
theorem search_head_min_witness :
    (∀ a b, EuclideanDistance a b ≠ F32.nan) ∧
    headMinB (searchF gTri.store (some 0) 2 20 [1] EuclideanDistance) = true :=
  ⟨fun a b h => by simp [EuclideanDistance] at h,
   search_head_min gTri.store (some 0) 2 20 [1] EuclideanDistance
     (fun a b h => by simp [EuclideanDistance] at h)⟩

/-! ### Level generation matches the spec formula (C7) -/

theorem round_log_char (ml : ℚ) (n : ℕ) (h0 : 0 < ml) (h1 : ml < 1) (hn : n ≠ 0)
    (K : ℕ) (hK : (K : ℤ) = round (Real.log n / Real.log (1 / (ml : ℝ)))) :
    ((n : ℚ) ^ 2 < (1/ml) ^ (2 * K + 1)) ∧
    (∀ j < K, ¬((n : ℚ) ^ 2 < (1/ml) ^ (2 * j + 1))) := by
  have hmlR : (0 : ℝ) < (ml : ℝ) := by exact_mod_cast h0
  have hmlR1 : (ml : ℝ) < 1 := by exact_mod_cast h1
  have hb : 1 < 1 / (ml : ℝ) := by rw [lt_div_iff hmlR]; linarith
  have hlb : 0 < Real.log (1 / (ml : ℝ)) := Real.log_pos hb
  have hnR : (1 : ℝ) ≤ (n : ℝ) := by exact_mod_cast Nat.one_le_iff_ne_zero.mpr hn
  have hln : 0 ≤ Real.log n := Real.log_nonneg hnR
  have hKup : Real.log n / Real.log (1 / (ml : ℝ)) < (K : ℝ) + 1/2 := by
    have h2 := Int.lt_floor_add_one (Real.log n / Real.log (1 / (ml : ℝ)) + 1/2)
    rw [round_eq] at hK
    have h3 : ((K : ℤ) : ℝ) = (⌊Real.log n / Real.log (1 / (ml : ℝ)) + 1/2⌋ : ℝ) := by
      exact_mod_cast congrArg (Int.cast : ℤ → ℝ) hK
    push_cast at h3
    linarith
  have hKlo : ∀ j : ℕ, j < K → (j : ℝ) + 1/2 ≤ Real.log n / Real.log (1 / (ml : ℝ)) := by
    intro j hj
    have h2 := Int.floor_le (Real.log n / Real.log (1 / (ml : ℝ)) + 1/2)
    rw [round_eq] at hK
    have h3 : ((K : ℤ) : ℝ) = (⌊Real.log n / Real.log (1 / (ml : ℝ)) + 1/2⌋ : ℝ) := by
      exact_mod_cast congrArg (Int.cast : ℤ → ℝ) hK
    push_cast at h3
    have h4 : (j : ℝ) + 1 ≤ (K : ℝ) := by exact_mod_cast hj
    linarith
  constructor
  · have hR : (n:ℝ)^2 < (1/(ml:ℝ))^(2*K+1) := by
      have hpos1 : (0:ℝ) < (n:ℝ)^2 := by positivity
      have hpos2 : (0:ℝ) < (1/(ml:ℝ))^(2*K+1) := by positivity
      rw [← Real.log_lt_log_iff hpos1 hpos2, Real.log_pow, Real.log_pow]
      rw [div_lt_iff hlb] at hKup
      push_cast
      linarith
    exact_mod_cast hR
  · intro j hj
    rw [not_lt]
    have hR : (1/(ml:ℝ))^(2*j+1) ≤ (n:ℝ)^2 := by
      have hpos1 : (0:ℝ) < (n:ℝ)^2 := by positivity
      have hpos2 : (0:ℝ) < (1/(ml:ℝ))^(2*j+1) := by positivity
      rw [← Real.log_le_log_iff hpos2 hpos1, Real.log_pow, Real.log_pow]
      have h5 := hKlo j hj
      rw [le_div_iff hlb] at h5
      push_cast
      linarith
    exact_mod_cast hR

theorem K_lt_fuel (ml : ℚ) (n : ℕ) (K : ℕ) (h0 : 0 < ml) (h1 : ml < 1)
    (hNP : ∀ j < K, ¬((n : ℚ) ^ 2 < (1/ml) ^ (2 * j + 1))) :
    K < (⌈((n : ℚ) ^ 2) / (1/ml - 1)⌉).toNat + 2 := by
  rcases Nat.eq_zero_or_pos K with h | h
  · omega
  · have hb : 1 < (1/ml : ℚ) := by rw [lt_div_iff h0]; linarith
    have hb1 : 0 < (1/ml - 1 : ℚ) := by linarith
    have h2 : (1/ml) ^ (2 * (K-1) + 1) ≤ ((n:ℚ)) ^ 2 :=
      not_lt.mp (hNP (K-1) (by omega))
    have hbern : 1 + ((2*(K-1)+1 : ℕ) : ℚ) * (1/ml - 1) ≤ (1/ml) ^ (2*(K-1)+1) := by
      have h3 := one_add_mul_le_pow (a := (1/ml - 1 : ℚ)) (by linarith) (2*(K-1)+1)
      have h4 : (1 : ℚ) + (1/ml - 1) = 1/ml := by ring
      rw [h4] at h3
      exact_mod_cast h3
    have h3 : ((2*(K-1)+1 : ℕ) : ℚ) ≤ ((n:ℚ))^2 / (1/ml - 1) := by
      rw [le_div_iff hb1]
      nlinarith
    have h4 : ((2*(K-1)+1 : ℕ) : ℚ) ≤ ((⌈((n:ℚ))^2 / (1/ml - 1)⌉ : ℤ) : ℚ) :=
      le_trans h3 (Int.le_ceil _)
    have h5 : ((2*(K-1)+1 : ℕ) : ℤ) ≤ ⌈((n:ℚ))^2 / (1/ml - 1)⌉ := by exact_mod_cast h4
    omega

theorem mlFind_least (b n2 : ℚ) (K : ℕ) (hP : n2 < b ^ (2 * K + 1))
    (hNP : ∀ j < K, ¬(n2 < b ^ (2 * j + 1))) :
    ∀ fuel k, k ≤ K → K < k + fuel → mlFind b n2 fuel k = K := by
  intro fuel
  induction fuel with
  | zero => intro k hk hlt; omega
  | succ fuel ih =>
    intro k hk hlt
    simp only [mlFind]
    by_cases hc : n2 < b ^ (2 * k + 1)
    · rw [if_pos hc]
      rcases Nat.lt_or_ge k K with hlt2 | hge
      · exact absurd hc (hNP k hlt2)
      · omega
    · rw [if_neg hc]
      apply ih
      · rcases Nat.lt_or_ge k K with h2 | h2
        · omega
        · have hkK : k = K := le_antisymm hk h2
          subst hkK
          exact absurd hP hc
      · omega

theorem maxLevelC_eq_spec (ml : ℚ) (n : ℕ) (h0 : 0 < ml) (h1 : ml < 1) :
    maxLevelC ml n = .ok (specMaxLevel ml n) := by
  unfold maxLevelC specMaxLevel
  rw [if_neg (ne_of_gt h0)]
  by_cases hn : n = 0
  · rw [if_pos hn, if_pos hn]
  · rw [if_neg hn, if_neg hn]
    have hround : (0 : ℤ) ≤ round (Real.log n / Real.log (1 / (ml : ℝ))) := by
      have hmlR : (0 : ℝ) < (ml : ℝ) := by exact_mod_cast h0
      have hmlR1 : (ml : ℝ) < 1 := by exact_mod_cast h1
      have hb : 1 < 1 / (ml : ℝ) := by rw [lt_div_iff hmlR]; linarith
      have hlb : 0 < Real.log (1 / (ml : ℝ)) := Real.log_pos hb
      have hnR : (1 : ℝ) ≤ (n : ℝ) := by exact_mod_cast Nat.one_le_iff_ne_zero.mpr hn
      have hln : 0 ≤ Real.log n := Real.log_nonneg hnR
      rw [round_eq]
      apply Int.floor_nonneg.mpr
      positivity
    set K : ℕ := (round (Real.log n / Real.log (1 / (ml : ℝ)))).toNat with hKdef
    have hKcast : (K : ℤ) = round (Real.log n / Real.log (1 / (ml : ℝ))) := by
      rw [hKdef]
      exact Int.toNat_of_nonneg hround
    obtain ⟨hP, hNP⟩ := round_log_char ml n h0 h1 hn K hKcast
    have hfuel := K_lt_fuel ml n K h0 h1 hNP
    have hrun := mlFind_least (1/ml) ((n:ℚ)^2) K hP hNP
      ((⌈((n : ℚ) ^ 2) / (1/ml - 1)⌉).toNat + 2) 0 (Nat.zero_le K) (by omega)
    simp only [Except.ok.injEq]
    rw [hrun, hKcast]

theorem getD_succ_tail (rng : List ℚ) (j : ℕ) :
    rng.getD (j+1) 0 = rng.tail.getD j 0 := by
  cases rng <;> rfl

theorem getD_zero_headD (rng : List ℚ) : rng.getD 0 0 = rng.headD 0 := by
  cases rng <;> rfl

theorem drawLevels_fst (ml : ℚ) :
    ∀ (it : ℕ) (rng : List ℚ) (level : ℕ),
      (drawLevels ml it level rng).1 = level + leastExceed ml rng it := by
  intro it
  induction it with
  | zero => intro rng level; simp [drawLevels, leastExceed]
  | succ it ih =>
    intro rng level
    by_cases hc : ml < rng.headD 0
    · have hL : drawLevels ml (it+1) level rng = (level, rng.tail) := by
        show (if ml < rng.headD 0 then ((level, rng.tail) : ℕ × List ℚ)
          else drawLevels ml it (level + 1) rng.tail) = (level, rng.tail)
        rw [if_pos hc]
      rw [hL]
      have hR : leastExceed ml rng (it+1) = 0 := by
        unfold leastExceed
        rw [List.range_succ_eq_map, List.filter_cons]
        have h0 : decide (ml < rng.getD 0 0) = true :=
          decide_eq_true (by rw [getD_zero_headD]; exact hc)
        rw [h0, if_pos rfl]
        rfl
      rw [hR]
      rfl
    · have hL : drawLevels ml (it+1) level rng = drawLevels ml it (level+1) rng.tail := by
        show (if ml < rng.headD 0 then ((level, rng.tail) : ℕ × List ℚ)
          else drawLevels ml it (level + 1) rng.tail) = drawLevels ml it (level+1) rng.tail
        rw [if_neg hc]
      rw [hL, ih]
      have hR : leastExceed ml rng (it+1) = 1 + leastExceed ml rng.tail it := by
        unfold leastExceed
        rw [List.range_succ_eq_map, List.filter_cons]
        have h0 : decide (ml < rng.getD 0 0) = false :=
          decide_eq_false (by rw [getD_zero_headD]; exact hc)
        rw [h0, if_neg (by simp)]
        rw [List.filter_map]
        have hcomp : ((fun j => decide (ml < rng.getD j 0)) ∘ Nat.succ) =
            (fun j => decide (ml < rng.tail.getD j 0)) := by
          funext j
          simp only [Function.comp]
          rw [getD_succ_tail]
        rw [hcomp, List.head?_map]
        cases hF : (List.filter (fun j => decide (ml < rng.tail.getD j 0))
            (List.range it)).head? with
        | none => simp; omega
        | some a => simp; omega
      rw [hR]
      omega

/-! ### Serializer round trip (C1) -/

theorem rdKeys_map (ks : List ℕ) :
    ∀ rest, rdKeys ks.length (ks.map (fun (k : ℕ) => Tok.tint (k : ℤ)) ++ rest) =
      .ok (ks, rest) := by
  induction ks with
  | nil => intro rest; rfl
  | cons k t ih =>
    intro rest
    simp only [List.map_cons, List.cons_append, List.length_cons, rdKeys, rdInt]
    rw [ih rest]
    simp

theorem rdNodes_exportNodes (s : Store) :
    ∀ (l : LayerMap) (rest : List Tok),
      (∀ e ∈ l, ∃ r, getN s e.2 = some r) →
      rdNodes l.length (l.flatMap (exportNode s) ++ rest) =
        .ok (layerImp s l, rest) := by
  intro l
  induction l with
  | nil => intro rest _; rfl
  | cons e t ih =>
    intro rest hres
    obtain ⟨r, hr⟩ := hres e (List.mem_cons_self e t)
    have hexp : exportNode s e =
        [Tok.tint r.key, Tok.tint r.value.length, Tok.tvec r.value,
         Tok.tint (r.nbrs.getD []).length] ++
          (r.nbrs.getD []).map (fun p => Tok.tint p.1) := by
      unfold exportNode
      rw [hr]
    have hmap : (r.nbrs.getD []).map (fun p => Tok.tint p.1) =
        ((r.nbrs.getD []).map Prod.fst).map (fun (k : ℕ) => Tok.tint (k : ℤ)) := by
      rw [List.map_map]
      rfl
    have himp : layerImp s (e :: t) =
        { key := r.key, vec := r.value,
          nbrKeys := (r.nbrs.getD []).map Prod.fst } :: layerImp s t := by
      unfold layerImp
      rw [List.map_cons, hr]
    rw [List.flatMap_cons, hexp, himp, hmap]
    simp only [List.cons_append, List.append_assoc, List.nil_append,
      List.length_cons, rdNodes, rdInt, rdVec]
    have hkeys := rdKeys_map ((r.nbrs.getD []).map Prod.fst)
      (t.flatMap (exportNode s) ++ rest)
    rw [show ((((r.nbrs.getD []).length : ℕ) : ℤ)).toNat =
        ((r.nbrs.getD []).map Prod.fst).length by simp]
    rw [hkeys]
    dsimp only
    rw [ih rest (fun e he => hres e (List.mem_cons_of_mem _ he))]
    simp

theorem rdLayers_exportLayers (s : Store) :
    ∀ (ls : List LayerMap) (rest : List Tok),
      (∀ l ∈ ls, ∀ e ∈ l, ∃ r, getN s e.2 = some r) →
      rdLayers ls.length (ls.flatMap (exportLayer s) ++ rest) =
        .ok (ls.map (layerImp s), rest) := by
  intro ls
  induction ls with
  | nil => intro rest _; rfl
  | cons l t ih =>
    intro rest hres
    rw [List.flatMap_cons]
    have hexp : exportLayer s l = Tok.tint l.length :: l.flatMap (exportNode s) := rfl
    rw [hexp]
    simp only [List.cons_append, List.append_assoc, List.nil_append,
      List.length_cons, rdLayers, rdInt]
    rw [show (((l.length : ℕ) : ℤ)).toNat = l.length by simp]
    rw [rdNodes_exportNodes s l (t.flatMap (exportLayer s) ++ rest)
      (hres l (List.mem_cons_self l t))]
    dsimp only
    rw [ih rest (fun l2 hl2 => hres l2 (List.mem_cons_of_mem _ hl2))]
    simp

theorem ainsert_append_of_lt {α : Type} (k : ℕ) (v : α) :
    ∀ l : List (ℕ × α), (∀ e ∈ l, e.1 < k) → ainsert k v l = l ++ [(k, v)] := by
  intro l
  induction l with
  | nil => intro _; rfl
  | cons hd t ih =>
    intro hlt
    obtain ⟨k', v'⟩ := hd
    have h1 : k' < k := hlt (k', v') (List.mem_cons_self _ _)
    unfold ainsert
    rw [if_neg (by omega), if_neg (by omega)]
    rw [ih (fun e he => hlt e (List.mem_cons_of_mem _ he))]
    rfl

theorem foldl_ainsert_sorted {α : Type} :
    ∀ (ps : List (ℕ × α)) (acc : List (ℕ × α)),
      sortedKeys (acc ++ ps) →
      ps.foldl (fun a p => ainsert p.1 p.2 a) acc = acc ++ ps := by
  intro ps
  induction ps with
  | nil => intro acc _; simp
  | cons p t ih =>
    intro acc hs
    obtain ⟨pk, pv⟩ := p
    simp only [List.foldl_cons]
    haveI : IsTrans (ℕ × α) (fun a b => a.1 < b.1) := ⟨fun a b c h1 h2 => lt_trans h1 h2⟩
    have hp := List.chain'_iff_pairwise.mp hs
    have hlt : ∀ e ∈ acc, e.1 < pk := by
      intro e he
      exact (List.pairwise_append.mp hp).2.2 e he (pk, pv) (List.mem_cons_self _ _)
    rw [ainsert_append_of_lt pk pv acc hlt]
    have hs2 : sortedKeys ((acc ++ [(pk, pv)]) ++ t) := by
      rw [List.append_assoc]
      exact hs
    rw [ih (acc ++ [(pk, pv)]) hs2]
    rw [List.append_assoc]
    rfl

theorem alookup_append_not_mem {α : Type} (k : ℕ) :
    ∀ (l1 : List (ℕ × α)) (l2 : List (ℕ × α)), (∀ e ∈ l1, e.1 ≠ k) →
      alookup k (l1 ++ l2) = alookup k l2 := by
  intro l1
  induction l1 with
  | nil => intro l2 _; rfl
  | cons hd t ih =>
    intro l2 h
    obtain ⟨k', v'⟩ := hd
    have hne : k ≠ k' := fun hc => h (k', v') (List.mem_cons_self _ _) hc.symm
    show (if k = k' then some v' else alookup k (t ++ l2)) = alookup k l2
    rw [if_neg hne]
    exact ih l2 (fun e he => h e (List.mem_cons_of_mem _ he))

theorem alookup_not_mem {α : Type} (k : ℕ) :
    ∀ l : List (ℕ × α), (∀ e ∈ l, e.1 ≠ k) → alookup k l = none := by
  intro l
  induction l with
  | nil => intro _; rfl
  | cons hd t ih =>
    intro h
    obtain ⟨k', v'⟩ := hd
    have hne : k ≠ k' := fun hc => h (k', v') (List.mem_cons_self _ _) hc.symm
    show (if k = k' then some v' else alookup k t) = none
    rw [if_neg hne]
    exact ih (fun e he => h e (List.mem_cons_of_mem _ he))

theorem enumMap_keys (base : ℕ) (ns : List ImpNode) :
    (enumMap base ns).map Prod.fst = ns.map ImpNode.key := by
  unfold enumMap
  rw [List.map_map]
  have h2 : ns.map ImpNode.key = (ns.enum.map Prod.snd).map ImpNode.key := by
    rw [List.enum_map_snd]
  rw [h2, List.map_map]
  rfl

theorem enumMap_sorted (base : ℕ) (ns : List ImpNode)
    (hks : List.Chain' (· < ·) (ns.map ImpNode.key)) :
    sortedKeys (enumMap base ns) := by
  unfold sortedKeys enumMap
  rw [List.chain'_map]
  have h1 : List.Chain' (fun a b : ImpNode => a.key < b.key) ns := by
    rw [← List.chain'_map (f := ImpNode.key)]
    exact hks
  have h2 : List.Chain' (fun a b : ℕ × ImpNode => a.2.key < b.2.key) ns.enum := by
    rw [show ns = ns.enum.map Prod.snd from (List.enum_map_snd ns).symm] at h1
    rw [List.chain'_map] at h1
    exact h1
  exact h2

theorem alookup_sorted_mem {α : Type} (k : ℕ) (v : α) :
    ∀ l : List (ℕ × α), sortedKeys l → (k, v) ∈ l → alookup k l = some v := by
  intro l hs hm
  obtain ⟨l1, l2, rfl⟩ := List.append_of_mem hm
  haveI : IsTrans (ℕ × α) (fun a b => a.1 < b.1) := ⟨fun a b c h1 h2 => lt_trans h1 h2⟩
  have hp := List.chain'_iff_pairwise.mp hs
  have hlt : ∀ e ∈ l1, e.1 ≠ k := by
    intro e he
    have := (List.pairwise_append.mp hp).2.2 e he (k, v) (List.mem_cons_self _ _)
    omega
  rw [alookup_append_not_mem k l1 ((k, v) :: l2) hlt]
  show (if k = k then some v else alookup k l2) = some v
  rw [if_pos rfl]

theorem buildLayer_eq (base : ℕ) (ns : List ImpNode)
    (hks : List.Chain' (· < ·) (ns.map ImpNode.key))
    (hnb : ∀ n ∈ ns, List.Chain' (· < ·) n.nbrKeys) :
    buildLayer base ns = (impRecs base ns, enumMap base ns) := by
  unfold impRecs
  have hmap : (ns.enum).foldl (fun acc p => ainsert p.2.key (base + p.1) acc) [] =
      enumMap base ns := by
    have h1 : (ns.enum).foldl (fun acc p => ainsert p.2.key (base + p.1) acc) [] =
        (enumMap base ns).foldl (fun a q => ainsert q.1 q.2 a) [] := by
      unfold enumMap
      rw [List.foldl_map]
    rw [h1]
    have := foldl_ainsert_sorted (enumMap base ns) []
      (by rw [List.nil_append]; exact enumMap_sorted base ns hks)
    rw [this]
    rfl
  unfold buildLayer
  rw [hmap]
  refine congrArg (fun x => (x, enumMap base ns)) ?_
  apply List.map_congr_left
  intro p hp
  have hpmem : p.2 ∈ ns := by
    have := List.mem_map_of_mem Prod.snd hp
    rwa [List.enum_map_snd] at this
  have hlk : alookup p.2.key (enumMap base ns) = some (base + p.1) := by
    apply alookup_sorted_mem p.2.key (base + p.1) (enumMap base ns)
      (enumMap_sorted base ns hks)
    unfold enumMap
    exact List.mem_map_of_mem (fun q => (q.2.key, base + q.1)) hp
  rw [hlk, if_pos rfl]
  have hraw : p.2.nbrKeys.foldl (fun acc k => ainsert k none acc) [] =
      p.2.nbrKeys.map (fun k => (k, (none : Option ℕ))) := by
    have h1 : p.2.nbrKeys.foldl (fun acc k => ainsert k none acc) [] =
        (p.2.nbrKeys.map (fun k => (k, (none : Option ℕ)))).foldl
          (fun a q => ainsert q.1 q.2 a) [] := by
      rw [List.foldl_map]
    rw [h1]
    have hsort : sortedKeys ([] ++ p.2.nbrKeys.map (fun k => (k, (none : Option ℕ)))) := by
      rw [List.nil_append]
      unfold sortedKeys
      rw [List.chain'_map]
      exact hnb p.2 hpmem
    rw [foldl_ainsert_sorted _ [] hsort]
    rfl
  rw [hraw, List.map_map]
  rfl

theorem impRecs_length (base : ℕ) (ns : List ImpNode) :
    (impRecs base ns).length = ns.length := by
  unfold impRecs
  rw [List.length_map, List.enum_length]

theorem get?_some_lt {α : Type} {l : List α} {i : ℕ} {a : α}
    (h : l.get? i = some a) : i < l.length := by
  by_contra hc
  rw [List.get?_eq_none.mpr (Nat.le_of_not_lt hc)] at h
  cases h

theorem buildLayers_spec :
    ∀ (lss : List (List ImpNode)) (s0 : Store) (acc : List LayerMap),
      (∀ ns ∈ lss, List.Chain' (· < ·) (ns.map ImpNode.key) ∧
        ∀ n ∈ ns, List.Chain' (· < ·) n.nbrKeys) →
      ∃ ext lms,
        buildLayers lss s0 acc = (s0 ++ ext, acc.reverse ++ lms) ∧
        lms.length = lss.length ∧
        ∀ i ns, lss.get? i = some ns →
          ∃ base, lms.get? i = some (enumMap base ns) ∧
            ∀ idx n, ns.get? idx = some n →
              (s0 ++ ext).get? (base + idx) = some
                { key := n.key, value := n.vec,
                  nbrs := some (n.nbrKeys.map
                    (fun k => (k, alookup k (enumMap base ns)))) } := by
  intro lss
  induction lss with
  | nil =>
    intro s0 acc _
    refine ⟨[], [], ?_, rfl, ?_⟩
    · show (s0, acc.reverse) = (s0 ++ [], acc.reverse ++ [])
      simp
    · intro i ns h
      simp at h
  | cons ns rest ih =>
    intro s0 acc hh
    obtain ⟨hks, hnb⟩ := hh ns (List.mem_cons_self _ _)
    have hbl := buildLayer_eq s0.length ns hks hnb
    have hstep : buildLayers (ns :: rest) s0 acc =
        buildLayers rest (s0 ++ impRecs s0.length ns)
          (enumMap s0.length ns :: acc) := by
      show (match buildLayer s0.length ns with
        | (recs, lm) => buildLayers rest (s0 ++ recs) (lm :: acc)) =
        buildLayers rest (s0 ++ impRecs s0.length ns) (enumMap s0.length ns :: acc)
      rw [hbl]
    obtain ⟨ext', lms', heq, hlen, hspec⟩ :=
      ih (s0 ++ impRecs s0.length ns) (enumMap s0.length ns :: acc)
        (fun ns2 h2 => hh ns2 (List.mem_cons_of_mem _ h2))
    refine ⟨impRecs s0.length ns ++ ext', enumMap s0.length ns :: lms', ?_, ?_, ?_⟩
    · rw [hstep, heq]
      rw [List.reverse_cons, List.append_assoc, List.append_assoc]
      rfl
    · simp [hlen]
    · intro i ns2 hns2
      cases i with
      | zero =>
        simp only [List.get?] at hns2
        injection hns2 with hns2
        subst hns2
        refine ⟨s0.length, rfl, ?_⟩
        intro idx n hn
        have hidx : idx < (impRecs s0.length ns).length := by
          rw [impRecs_length]
          exact get?_some_lt hn
        rw [List.get?_append_right (by omega)]
        rw [show s0.length + idx - s0.length = idx by omega]
        rw [List.get?_append hidx]
        unfold impRecs
        rw [List.get?_map, List.enum_get?, hn]
        rfl
      | succ i =>
        simp only [List.get?] at hns2 ⊢
        obtain ⟨base, hbase, hrec⟩ := hspec i ns2 hns2
        refine ⟨base, hbase, ?_⟩
        intro idx n hn
        have := hrec idx n hn
        rwa [List.append_assoc] at this

theorem alookup_some_mem {α : Type} {k : ℕ} {v : α} :
    ∀ {l : List (ℕ × α)}, alookup k l = some v → (k, v) ∈ l := by
  intro l
  induction l with
  | nil => intro h; cases h
  | cons hd t ih =>
    intro h
    obtain ⟨k', v'⟩ := hd
    rw [show alookup k ((k', v') :: t) =
        if k = k' then some v' else alookup k t from rfl] at h
    by_cases hk : k = k'
    · subst hk
      rw [if_pos rfl] at h
      injection h with h
      subst h
      exact List.mem_cons_self _ _
    · rw [if_neg hk] at h
      exact List.mem_cons_of_mem _ (ih h)

theorem alookup_isSome_of_mem_keys {α : Type} {k : ℕ} :
    ∀ {l : List (ℕ × α)}, k ∈ l.map Prod.fst → alookup k l ≠ none := by
  intro l
  induction l with
  | nil => intro h; simp at h
  | cons hd t ih =>
    intro h
    obtain ⟨k', v'⟩ := hd
    by_cases hk : k = k'
    · subst hk
      show (if k = k then some v' else alookup k t) ≠ none
      rw [if_pos rfl]
      exact Option.some_ne_none v'
    · show (if k = k' then some v' else alookup k t) ≠ none
      rw [if_neg hk]
      apply ih
      simp only [List.map_cons, List.mem_cons] at h
      exact h.resolve_left hk

theorem layerImp_keys (s : Store) (l : LayerMap)
    (h : ∀ e ∈ l, ∃ r, getN s e.2 = some r ∧ r.key = e.1) :
    (layerImp s l).map ImpNode.key = l.map Prod.fst := by
  unfold layerImp
  rw [List.map_map]
  apply List.map_congr_left
  intro e he
  obtain ⟨r, hr, hk⟩ := h e he
  simp only [Function.comp]
  rw [hr]
  exact hk

theorem layerImp_get? (s : Store) (l : LayerMap) (idx : ℕ) (e : ℕ × ℕ)
    (r : NodeRec) (hg : l.get? idx = some e) (hr : getN s e.2 = some r) :
    (layerImp s l).get? idx = some
      { key := r.key, vec := r.value, nbrKeys := (r.nbrs.getD []).map Prod.fst } := by
  unfold layerImp
  rw [List.get?_map, hg, Option.map_some']
  rw [hr]

/-- C1 (amended): for a graph whose layers are sorted and whose members
all resolve to records with matching keys and sorted neighbor maps,
Export followed by Import into any graph succeeds and reproduces the
parameters and the complete key-level structure: layer count, each
layer's member keys, and each member's vector and neighbor-key list.
(Pointer-level structure is not reproduced: stale neighbor pointers -
reachable via Delete - export as their keys and re-import as nil, so
search answers can differ; see the counterexample.) -/
theorem export_import_structure (g g0 : GGraph)
    (hwf : ∀ l ∈ g.layers, sortedKeys l ∧
      ∀ e ∈ l, ∃ r, getN g.store e.2 = some r ∧ r.key = e.1 ∧
        sortedKeys (r.nbrs.getD [])) :
    ∃ g2, importF (exportF g) g0 = .ok g2 ∧
      g2.M = g.M ∧ g2.Ml = g.Ml ∧ g2.EfSearch = g.EfSearch ∧
      g2.layers.length = g.layers.length ∧
      (∀ i, layerKeys g2 i = layerKeys g i) ∧
      (∀ i k, nodeView g2 i k = nodeView g i k) := by
  have hres : ∀ l ∈ g.layers, ∀ e ∈ l, ∃ r, getN g.store e.2 = some r := by
    intro l hl e he
    obtain ⟨r, hr, _, _⟩ := (hwf l hl).2 e he
    exact ⟨r, hr⟩
  have hkeyres : ∀ l ∈ g.layers, ∀ e ∈ l, ∃ r, getN g.store e.2 = some r ∧ r.key = e.1 := by
    intro l hl e he
    obtain ⟨r, hr, hk, _⟩ := (hwf l hl).2 e he
    exact ⟨r, hr, hk⟩
  have hrd := rdLayers_exportLayers g.store g.layers [] hres
  have hbl_hyp : ∀ ns ∈ g.layers.map (layerImp g.store),
      List.Chain' (· < ·) (ns.map ImpNode.key) ∧
      ∀ n ∈ ns, List.Chain' (· < ·) n.nbrKeys := by
    intro ns hns
    obtain ⟨l, hl, rfl⟩ := List.mem_map.mp hns
    constructor
    · rw [layerImp_keys g.store l (hkeyres l hl)]
      rw [List.chain'_map]
      exact (hwf l hl).1
    · intro n hn
      obtain ⟨e, he, hfe⟩ := List.mem_map.mp hn
      obtain ⟨r, hr, hk, hs⟩ := (hwf l hl).2 e he
      rw [← hfe, hr]
      show List.Chain' (· < ·) ((r.nbrs.getD []).map Prod.fst)
      rw [List.chain'_map]
      exact hs
  obtain ⟨ext, lms, heq, hlen, hspec⟩ :=
    buildLayers_spec (g.layers.map (layerImp g.store)) [] [] hbl_hyp
  have heq' : buildLayers (g.layers.map (layerImp g.store)) [] [] = (ext, lms) := by
    rw [heq]
    simp
  have hext : ∀ n, getN ext n = getN ([] ++ ext) n := by
    intro n
    rw [List.nil_append]
  refine ⟨{ g0 with
      M := g.M, Ml := g.Ml, EfSearch := g.EfSearch,
      store := ext, layers := lms }, ?_, rfl, rfl, rfl, ?_, ?_, ?_⟩
  · unfold importF exportF
    simp only [List.cons_append, List.nil_append, rdInt, rdF64]
    rw [if_neg (by decide : ¬((1 : ℤ) ≠ 1))]
    rw [show (((g.layers.length : ℕ) : ℤ)).toNat = g.layers.length by simp]
    rw [show g.layers.flatMap (exportLayer g.store) =
        g.layers.flatMap (exportLayer g.store) ++ [] from (List.append_nil _).symm]
    rw [hrd]
    dsimp only
    rw [heq']
    dsimp only
    simp
  · rw [hlen, List.length_map]
  · intro i
    unfold layerKeys getLayer
    dsimp only
    cases hgi : g.layers.get? i with
    | none =>
      have hni : lms.get? i = none := by
        rw [List.get?_eq_none] at hgi ⊢
        rw [hlen, List.length_map]
        exact hgi
      rw [hni]
    | some l =>
      have hl : l ∈ g.layers := List.get?_mem hgi
      have hLs : (g.layers.map (layerImp g.store)).get? i =
          some (layerImp g.store l) := by
        rw [List.get?_map, hgi, Option.map_some']
      obtain ⟨base, hbase, hrec⟩ := hspec i (layerImp g.store l) hLs
      rw [hbase]
      simp only [Option.getD_some]
      rw [enumMap_keys]
      exact layerImp_keys g.store l (hkeyres l hl)
  · intro i k
    unfold nodeView getLayer
    dsimp only
    cases hgi : g.layers.get? i with
    | none =>
      have hni : lms.get? i = none := by
        rw [List.get?_eq_none] at hgi ⊢
        rw [hlen, List.length_map]
        exact hgi
      rw [hni]
      rfl
    | some l =>
      have hl : l ∈ g.layers := List.get?_mem hgi
      obtain ⟨hsort, hmem⟩ := hwf l hl
      have hLs : (g.layers.map (layerImp g.store)).get? i =
          some (layerImp g.store l) := by
        rw [List.get?_map, hgi, Option.map_some']
      obtain ⟨base, hbase, hrec⟩ := hspec i (layerImp g.store l) hLs
      have hEMsorted : sortedKeys (enumMap base (layerImp g.store l)) := by
        apply enumMap_sorted
        rw [layerImp_keys g.store l (hkeyres l hl), List.chain'_map]
        exact hsort
      rw [hbase]
      simp only [Option.getD_some]
      cases hak : alookup k l with
      | none =>
        have hknotin : k ∉ l.map Prod.fst := by
          intro hc
          exact alookup_isSome_of_mem_keys hc hak
        have hak2 : alookup k (enumMap base (layerImp g.store l)) = none := by
          apply alookup_not_mem
          intro e he hek
          apply hknotin
          rw [← hek]
          have hmk : e.1 ∈ (enumMap base (layerImp g.store l)).map Prod.fst :=
            List.mem_map_of_mem Prod.fst he
          rwa [enumMap_keys, layerImp_keys g.store l (hkeyres l hl)] at hmk
        rw [hak2]
      | some nid =>
        have hmem2 := alookup_some_mem hak
        obtain ⟨idx, hidx⟩ := List.get?_of_mem hmem2
        obtain ⟨r, hr, hkey, hnbs⟩ := hmem (k, nid) hmem2
        have hget := layerImp_get? g.store l idx (k, nid) r hidx hr
        have hmemEM : (r.key, base + idx) ∈ enumMap base (layerImp g.store l) := by
          unfold enumMap
          have henum : (layerImp g.store l).enum.get? idx = some (idx,
              { key := r.key, vec := r.value,
                nbrKeys := (r.nbrs.getD []).map Prod.fst }) := by
            rw [List.enum_get?, hget, Option.map_some']
          exact List.mem_map_of_mem (fun q => (q.2.key, base + q.1))
            (List.get?_mem henum)
        have hakEM : alookup k (enumMap base (layerImp g.store l)) =
            some (base + idx) := by
          rw [show k = r.key from hkey.symm]
          exact alookup_sorted_mem r.key (base + idx) _ hEMsorted hmemEM
        rw [hakEM]
        have hgn := hrec idx _ hget
        have hgn2 : getN ext (base + idx) = some
            { key := r.key, value := r.value,
              nbrs := some (((r.nbrs.getD []).map Prod.fst).map
                (fun k2 => (k2, alookup k2 (enumMap base (layerImp g.store l))))) } := by
          rw [hext]
          exact hgn
        show (match getN ext (base + idx) with
          | none => none
          | some r2 => some (r2.value, (r2.nbrs.getD []).map Prod.fst)) =
          (match getN g.store nid with
          | none => none
          | some r2 => some (r2.value, (r2.nbrs.getD []).map Prod.fst))
        rw [hgn2, hr]
        simp [List.map_map]

/-- Witness for C1 (amended) at a concrete input: the triangle graph is
well-formed and its export/import round trip reproduces the key-level
structure. -/
theorem export_import_structure_witness :
    (∀ l ∈ gTri.layers, sortedKeys l ∧
      ∀ e ∈ l, ∃ r, getN gTri.store e.2 = some r ∧ r.key = e.1 ∧
        sortedKeys (r.nbrs.getD [])) ∧
    ∃ g2, importF (exportF gTri) gZero = .ok g2 ∧
      g2.M = gTri.M ∧ g2.Ml = gTri.Ml ∧ g2.EfSearch = gTri.EfSearch ∧
      g2.layers.length = gTri.layers.length ∧
      (∀ i, layerKeys g2 i = layerKeys gTri i) ∧
      (∀ i k, nodeView g2 i k = nodeView gTri i k) := by
  have hwf : ∀ l ∈ gTri.layers, sortedKeys l ∧
      ∀ e ∈ l, ∃ r, getN gTri.store e.2 = some r ∧ r.key = e.1 ∧
        sortedKeys (r.nbrs.getD []) := by
    intro l hl
    have hl' : l = [(1, 0), (2, 1), (3, 2)] := by simpa [gTri] using hl
    subst hl'
    refine ⟨by unfold sortedKeys; simp [List.chain'_cons], ?_⟩
    intro e he
    have he' : e = (1, 0) ∨ e = (2, 1) ∨ e = (3, 2) := by simpa using he
    rcases he' with rfl | rfl | rfl
    · exact ⟨{ key := 1, value := [0], nbrs := some [(2, some 1), (3, some 2)] },
        rfl, rfl, by unfold sortedKeys; simp [List.chain'_cons]⟩
    · exact ⟨{ key := 2, value := [4], nbrs := some [(1, some 0), (3, some 2)] },
        rfl, rfl, by unfold sortedKeys; simp [List.chain'_cons]⟩
    · exact ⟨{ key := 3, value := [3], nbrs := some [(1, some 0), (2, some 1)] },
        rfl, rfl, by unfold sortedKeys; simp [List.chain'_cons]⟩
  exact ⟨hwf, export_import_structure gTri gZero hwf⟩

/-! ### Bidirectional wiring preserves symmetry and loop-freedom (C3) -/

theorem getN_lt {s : Store} {i : ℕ} {r : NodeRec} (h : getN s i = some r) :
    i < s.length := by
  by_contra hc
  unfold getN at h
  rw [List.get?_eq_none.mpr (Nat.le_of_not_lt hc)] at h
  cases h

theorem getN_setN_self {s : Store} {i : ℕ} (r : NodeRec) (h : i < s.length) :
    getN (setN s i r) i = some r := List.get?_set_eq_of_lt r h

theorem getN_setN_ne {s : Store} {i j : ℕ} (r : NodeRec) (h : i ≠ j) :
    getN (setN s i r) j = getN s j := List.get?_set_ne r s h

theorem setN_length (s : Store) (i : ℕ) (r : NodeRec) :
    (setN s i r).length = s.length := List.length_set s i r

theorem mem_ainsert {α : Type} (k : ℕ) (v : α) :
    ∀ (l : List (ℕ × α)), sortedKeys l → ∀ e : ℕ × α,
      (e ∈ ainsert k v l ↔ e = (k, v) ∨ (e ∈ l ∧ e.1 ≠ k)) := by
  intro l
  induction l with
  | nil => intro _ e; simp [ainsert]
  | cons hd rest ih =>
    intro hs e
    obtain ⟨k', v'⟩ := hd
    haveI : IsTrans (ℕ × α) (fun a b => a.1 < b.1) := ⟨fun a b c h1 h2 => lt_trans h1 h2⟩
    have hp := List.chain'_iff_pairwise.mp hs
    have hgt : ∀ e ∈ rest, k' < e.1 := by
      intro e he
      exact (List.pairwise_cons.mp hp).1 e he
    have hrest : sortedKeys rest := (List.chain'_cons'.mp hs).2
    unfold ainsert
    by_cases h1 : k < k'
    · rw [if_pos h1]
      simp only [List.mem_cons]
      constructor
      · rintro (rfl | rfl | h)
        · exact Or.inl rfl
        · exact Or.inr ⟨Or.inl rfl, by simp; omega⟩
        · exact Or.inr ⟨Or.inr h, by have := hgt e h; omega⟩
      · rintro (rfl | ⟨h, hne⟩)
        · exact Or.inl rfl
        · exact Or.inr h
    · by_cases h2 : k = k'
      · rw [if_neg h1, if_pos h2]
        subst h2
        simp only [List.mem_cons]
        constructor
        · rintro (rfl | h)
          · exact Or.inl rfl
          · exact Or.inr ⟨Or.inr h, by have := hgt e h; omega⟩
        · rintro (rfl | ⟨(rfl | h), hne⟩)
          · exact Or.inl rfl
          · simp at hne
          · exact Or.inr h
      · rw [if_neg h1, if_neg h2]
        simp only [List.mem_cons, ih hrest e]
        constructor
        · rintro (rfl | rfl | ⟨h, hne⟩)
          · exact Or.inr ⟨Or.inl rfl, by simp; omega⟩
          · exact Or.inl rfl
          · exact Or.inr ⟨Or.inr h, hne⟩
        · rintro (rfl | ⟨(rfl | h), hne⟩)
          · exact Or.inr (Or.inl rfl)
          · exact Or.inl rfl
          · exact Or.inr (Or.inr ⟨h, hne⟩)

theorem cohB_spec {s : Store} (hc : cohB s = true) :
    ∀ i r, getN s i = some r → ∀ p ∈ r.nbrs.getD [], ∀ id, p.2 = some id →
      ∃ r2, getN s id = some r2 ∧ r2.key = p.1 := by
  intro i r hi p hp id hpid
  unfold cohB at hc
  rw [List.all_eq_true] at hc
  have hr := hc r (List.get?_mem hi)
  rw [List.all_eq_true] at hr
  have hp2 := hr p hp
  rw [hpid] at hp2
  dsimp only at hp2
  cases hg : getN s id with
  | none =>
    exfalso
    rw [hg] at hp2
    simp at hp2
  | some r2 =>
    rw [hg] at hp2
    refine ⟨r2, rfl, ?_⟩
    simpa using hp2

theorem key_inj {s : Store} (hn : (s.map (fun r => r.key)).Nodup)
    {i j : ℕ} {ri rj : NodeRec} (hi : getN s i = some ri) (hj : getN s j = some rj)
    (hk : ri.key = rj.key) : i = j := by
  have hi' : (s.map (fun r => r.key)).get? i = some ri.key := by
    rw [List.get?_map]
    unfold getN at hi
    rw [hi]
    rfl
  have hj' : (s.map (fun r => r.key)).get? j = some rj.key := by
    rw [List.get?_map]
    unfold getN at hj
    rw [hj]
    rfl
  apply List.get?_inj (by rw [List.length_map]; exact getN_lt hi) hn
  rw [hi', hj', hk]

theorem addNeighborF_no_evict (fuel : ℕ) (s : Store) (nId newId m : ℕ)
    (dist : DistanceFunc) (nrec newRec : NodeRec)
    (ha : getN s nId = some nrec) (hb : getN s newId = some newRec)
    (hlen : (ainsert newRec.key (some newId) (nrec.nbrs.getD [])).length ≤ m) :
    addNeighborF (fuel + 1) s nId newId m dist =
      setN s nId { nrec with
        nbrs := some (ainsert newRec.key (some newId) (nrec.nbrs.getD [])) } := by
  simp only [addNeighborF]
  rw [ha, hb]
  dsimp only
  rw [if_pos hlen]

theorem edgeB_setN_ne (s : Store) (a i j : ℕ) (r : NodeRec) (h : a ≠ i) :
    edgeB (setN s a r) i j = edgeB s i j := by
  unfold edgeB
  rw [getN_setN_ne r h]

theorem edgeB_setN_self (s : Store) (a : ℕ) (r : NodeRec) (h : a < s.length) (j : ℕ) :
    edgeB (setN s a r) a j = (r.nbrs.getD []).any (fun e => e.2 = some j) := by
  unfold edgeB
  rw [getN_setN_self r h]

theorem edgeB_iff (s : Store) (i j : ℕ) :
    edgeB s i j = true ↔
      ∃ r, getN s i = some r ∧ ∃ p ∈ r.nbrs.getD [], p.2 = some j := by
  unfold edgeB
  cases h : getN s i with
  | none => simp
  | some r => simp [List.any_eq_true]

theorem edgeB_oob {s : Store} {i : ℕ} (h : s.length ≤ i) (j : ℕ) :
    edgeB s i j = false := by
  unfold edgeB getN
  rw [List.get?_eq_none.mpr h]

theorem storeSymmB_iff (s : Store) :
    storeSymmB s = true ↔
      ∀ i < s.length, ∀ j < s.length, edgeB s i j = true → edgeB s j i = true := by
  unfold storeSymmB
  simp only [List.all_eq_true, List.mem_range]
  constructor
  · intro h i hi j hj he
    have h2 := h i hi j hj
    rw [he] at h2
    simpa using h2
  · intro h i hi j hj
    by_cases he : edgeB s i j = true
    · rw [he, h i hi j hj he]
      rfl
    · rw [Bool.eq_false_iff.mpr he]
      rfl

theorem storeLoopFreeB_iff (s : Store) :
    storeLoopFreeB s = true ↔ ∀ i < s.length, edgeB s i i = false := by
  unfold storeLoopFreeB
  simp only [List.all_eq_true, List.mem_range]
  constructor
  · intro h i hi
    have h2 := h i hi
    simpa using h2
  · intro h i hi
    rw [h i hi]
    rfl

/-- C3 (amended): a single bidirectional wiring step of Add (the two
addNeighbor calls of the neighborhood loop) preserves symmetry and
loop-freedom of the store's neighbor relation and establishes the new
edge in both directions, provided no eviction fires (both neighbor maps
stay within m after the insert), the two nodes are distinct, record keys
are pairwise distinct, and neighbor pointers are key-coherent.  Once an
eviction or a deletion triggers replenish, symmetry can fail (see the
counterexample): replenish adds one-directional edges. -/
theorem addNeighbor_pair_sym (fuel m : ℕ) (dist : DistanceFunc) (s : Store)
    (aid bid : ℕ) (arec brec : NodeRec)
    (ha : getN s aid = some arec) (hb : getN s bid = some brec)
    (hne : aid ≠ bid)
    (hsa : sortedKeys (arec.nbrs.getD [])) (hsb : sortedKeys (brec.nbrs.getD []))
    (hcoh : cohB s = true) (hnodup : (s.map (fun r => r.key)).Nodup)
    (hda : (ainsert brec.key (some bid) (arec.nbrs.getD [])).length ≤ m)
    (hdb : (ainsert arec.key (some aid) (brec.nbrs.getD [])).length ≤ m)
    (hsym : storeSymmB s = true) (hlf : storeLoopFreeB s = true) :
    storeSymmB (addNeighborF (fuel + 1)
        (addNeighborF (fuel + 1) s aid bid m dist) bid aid m dist) = true ∧
    storeLoopFreeB (addNeighborF (fuel + 1)
        (addNeighborF (fuel + 1) s aid bid m dist) bid aid m dist) = true ∧
    edgeB (addNeighborF (fuel + 1)
        (addNeighborF (fuel + 1) s aid bid m dist) bid aid m dist) aid bid = true ∧
    edgeB (addNeighborF (fuel + 1)
        (addNeighborF (fuel + 1) s aid bid m dist) bid aid m dist) bid aid = true := by
  have halen : aid < s.length := getN_lt ha
  have hblen : bid < s.length := getN_lt hb
  set na' := ainsert brec.key (some bid) (arec.nbrs.getD []) with hna
  set ra' : NodeRec := { arec with nbrs := some na' } with hra
  set nb' := ainsert arec.key (some aid) (brec.nbrs.getD []) with hnb
  set rb' : NodeRec := { brec with nbrs := some nb' } with hrb
  have h1 : addNeighborF (fuel+1) s aid bid m dist = setN s aid ra' :=
    addNeighborF_no_evict fuel s aid bid m dist arec brec ha hb hda
  have hgb1 : getN (setN s aid ra') bid = some brec := by
    rw [getN_setN_ne ra' hne]
    exact hb
  have hga1 : getN (setN s aid ra') aid = some ra' := getN_setN_self ra' halen
  have h2 : addNeighborF (fuel+1) (setN s aid ra') bid aid m dist =
      setN (setN s aid ra') bid rb' :=
    addNeighborF_no_evict fuel (setN s aid ra') bid aid m dist brec ra' hgb1 hga1 hdb
  rw [h1, h2]
  set S2 := setN (setN s aid ra') bid rb' with hS2
  have hlen2 : S2.length = s.length := by
    rw [hS2, setN_length, setN_length]
  have hga2 : getN S2 aid = some ra' := by
    rw [hS2, getN_setN_ne rb' (Ne.symm hne)]
    exact hga1
  have hgb2 : getN S2 bid = some rb' := by
    rw [hS2]
    exact getN_setN_self rb' (by rw [setN_length]; exact hblen)
  have hEo : ∀ i j, i ≠ aid → i ≠ bid → edgeB S2 i j = edgeB s i j := by
    intro i j hia hib
    rw [hS2, edgeB_setN_ne _ _ _ _ rb' (Ne.symm hib), edgeB_setN_ne _ _ _ _ ra' (Ne.symm hia)]
  have hEa : ∀ j, edgeB S2 aid j = true ↔ ∃ p ∈ na', p.2 = some j := by
    intro j
    rw [edgeB_iff]
    constructor
    · rintro ⟨r, hr, p, hpm, hpj⟩
      rw [hga2] at hr
      injection hr with hr
      subst hr
      exact ⟨p, hpm, hpj⟩
    · rintro ⟨p, hpm, hpj⟩
      exact ⟨ra', hga2, p, hpm, hpj⟩
  have hEb : ∀ j, edgeB S2 bid j = true ↔ ∃ p ∈ nb', p.2 = some j := by
    intro j
    rw [edgeB_iff]
    constructor
    · rintro ⟨r, hr, p, hpm, hpj⟩
      rw [hgb2] at hr
      injection hr with hr
      subst hr
      exact ⟨p, hpm, hpj⟩
    · rintro ⟨p, hpm, hpj⟩
      exact ⟨rb', hgb2, p, hpm, hpj⟩
  have hchar : ∀ i j, edgeB S2 i j = true ↔
      (edgeB s i j = true ∨ (i = aid ∧ j = bid) ∨ (i = bid ∧ j = aid)) := by
    intro i j
    by_cases hia : i = aid
    · rw [hia]
      rw [hEa j]
      constructor
      · rintro ⟨p, hp, hpj⟩
        rcases (mem_ainsert brec.key (some bid) _ hsa p).mp hp with rfl | ⟨hmem, hkne⟩
        · right
          left
          refine ⟨rfl, ?_⟩
          simpa using hpj.symm
        · left
          rw [edgeB_iff]
          exact ⟨arec, ha, p, hmem, hpj⟩
      · intro h
        rcases h with he | ⟨_, hjb⟩ | ⟨hab, _⟩
        · rw [edgeB_iff] at he
          obtain ⟨r, hr, p, hpm, hpj⟩ := he
          rw [ha] at hr
          injection hr with hr
          subst hr
          by_cases hk : p.1 = brec.key
          · obtain ⟨r2, hr2, hr2k⟩ := cohB_spec hcoh aid arec ha p hpm j hpj
            have hjb : j = bid := key_inj hnodup hr2 hb (by rw [hr2k, hk])
            rw [hjb]
            exact ⟨(brec.key, some bid),
              (mem_ainsert brec.key (some bid) _ hsa _).mpr (Or.inl rfl), rfl⟩
          · exact ⟨p, (mem_ainsert brec.key (some bid) _ hsa p).mpr
              (Or.inr ⟨hpm, hk⟩), hpj⟩
        · rw [hjb]
          exact ⟨(brec.key, some bid),
            (mem_ainsert brec.key (some bid) _ hsa _).mpr (Or.inl rfl), rfl⟩
        · exact absurd hab hne
    · by_cases hib : i = bid
      · rw [hib]
        rw [hEb j]
        constructor
        · rintro ⟨p, hp, hpj⟩
          rcases (mem_ainsert arec.key (some aid) _ hsb p).mp hp with rfl | ⟨hmem, hkne⟩
          · right
            right
            refine ⟨rfl, ?_⟩
            simpa using hpj.symm
          · left
            rw [edgeB_iff]
            exact ⟨brec, hb, p, hmem, hpj⟩
        · intro h
          rcases h with he | ⟨hab, _⟩ | ⟨_, hja⟩
          · rw [edgeB_iff] at he
            obtain ⟨r, hr, p, hpm, hpj⟩ := he
            rw [hb] at hr
            injection hr with hr
            subst hr
            by_cases hk : p.1 = arec.key
            · obtain ⟨r2, hr2, hr2k⟩ := cohB_spec hcoh bid brec hb p hpm j hpj
              have hja : j = aid := key_inj hnodup hr2 ha (by rw [hr2k, hk])
              rw [hja]
              exact ⟨(arec.key, some aid),
                (mem_ainsert arec.key (some aid) _ hsb _).mpr (Or.inl rfl), rfl⟩
            · exact ⟨p, (mem_ainsert arec.key (some aid) _ hsb p).mpr
                (Or.inr ⟨hpm, hk⟩), hpj⟩
          · exact absurd hab (fun hx => hne hx.symm)
          · rw [hja]
            exact ⟨(arec.key, some aid),
              (mem_ainsert arec.key (some aid) _ hsb _).mpr (Or.inl rfl), rfl⟩
      · rw [hEo i j hia hib]
        constructor
        · intro he
          exact Or.inl he
        · rintro (he | ⟨rfl, _⟩ | ⟨rfl, _⟩)
          · exact he
          · exact absurd rfl hia
          · exact absurd rfl hib
  refine ⟨?_, ?_, ?_, ?_⟩
  · rw [storeSymmB_iff]
    intro i hi j hj he
    rw [hlen2] at hi hj
    rcases (hchar i j).mp he with he' | ⟨h3, h4⟩ | ⟨h3, h4⟩
    · have hss := (storeSymmB_iff s).mp hsym i hi j hj he'
      exact (hchar j i).mpr (Or.inl hss)
    · exact (hchar j i).mpr (Or.inr (Or.inr ⟨h4, h3⟩))
    · exact (hchar j i).mpr (Or.inr (Or.inl ⟨h4, h3⟩))
  · rw [storeLoopFreeB_iff]
    intro i hi
    cases hE2 : edgeB S2 i i with
    | false => rfl
    | true =>
      exfalso
      rcases (hchar i i).mp hE2 with he | ⟨h3, h4⟩ | ⟨h3, h4⟩
      · rw [hlen2] at hi
        have := (storeLoopFreeB_iff s).mp hlf i hi
        rw [this] at he
        cases he
      · exact hne (h3.symm.trans h4)
      · exact hne (h4.symm.trans h3)
  · exact (hchar aid bid).mpr (Or.inr (Or.inl ⟨rfl, rfl⟩))
  · exact (hchar bid aid).mpr (Or.inr (Or.inr ⟨rfl, rfl⟩))

/-- Witness for C3 (amended) at a concrete input: wiring the two isolated
nodes of sPair in both directions (M = 2, no eviction possible) yields a
symmetric, loop-free store containing the edge both ways. -/
theorem addNeighbor_pair_sym_witness :
    (getN sPair 0 = some { key := 1, value := [0], nbrs := some [] } ∧
     getN sPair 1 = some { key := 2, value := [1], nbrs := some [] } ∧
     cohB sPair = true ∧ (sPair.map (fun r => r.key)).Nodup ∧
     storeSymmB sPair = true ∧ storeLoopFreeB sPair = true) ∧
    (storeSymmB (addNeighborF 1 (addNeighborF 1 sPair 0 1 2 EuclideanDistance)
        1 0 2 EuclideanDistance) = true ∧
     storeLoopFreeB (addNeighborF 1 (addNeighborF 1 sPair 0 1 2 EuclideanDistance)
        1 0 2 EuclideanDistance) = true ∧
     edgeB (addNeighborF 1 (addNeighborF 1 sPair 0 1 2 EuclideanDistance)
        1 0 2 EuclideanDistance) 0 1 = true ∧
     edgeB (addNeighborF 1 (addNeighborF 1 sPair 0 1 2 EuclideanDistance)
        1 0 2 EuclideanDistance) 1 0 = true) :=
  ⟨⟨by decide, by decide, by decide, by decide, by decide, by decide⟩,
   addNeighbor_pair_sym 0 2 EuclideanDistance sPair 0 1
     { key := 1, value := [0], nbrs := some [] }
     { key := 2, value := [1], nbrs := some [] }
     (by decide) (by decide) (by decide) List.chain'_nil List.chain'_nil
     (by decide) (by decide) (by decide) (by decide) (by decide) (by decide)⟩

/-- C5 (amended): when no scanned distance is NaN, the worst-neighbor
scan of addNeighbor (graph.go) selects an entry of the neighbor map
whose distance to the node is greatest among all resolvable entries (the
embedding iterates in ascending key order, so ties resolve to the first,
i.e. smallest, key); addNeighborF then erases exactly the selected key,
removes the reciprocal edge and replenishes the evicted neighbor.  The
NaN clause of the original claim is refuted separately. -/
theorem worstScan_picks_max (s : Store) (nval : Vec) (dist : DistanceFunc)
    (entries : List (ℕ × Option ℕ))
    (hd : ∀ e ∈ entries, ∀ id rec0, e.2 = some id → getN s id = some rec0 →
      dist rec0.value nval ≠ F32.nan)
    (wid wkey : ℕ)
    (h : (worstScan s nval dist entries).2 = some (wid, wkey)) :
    ∃ wrec, getN s wid = some wrec ∧ wkey = wrec.key ∧
      (worstScan s nval dist entries).1 = dist wrec.value nval ∧
      ∀ e ∈ entries, ∀ id rec0, e.2 = some id → getN s id = some rec0 →
        F32.le (dist rec0.value nval) (dist wrec.value nval) = true := by
  obtain ⟨h1, h2, h3, h4⟩ := worstStep_fold_max s nval dist entries (F32.ninf, none)
    hd (by decide) (fun _ => rfl) (by intro id0 k0 hx; exact Option.noConfusion hx)
  obtain ⟨r0, hr1, hr2, hr3⟩ := h3 wid wkey h
  refine ⟨r0, hr1, hr2, hr3, ?_⟩
  intro e he id rec0 hid hrec
  rw [← hr3]
  exact h4 e he id rec0 hid hrec

/-- Witness for C5 (amended) at a concrete input: scanning node 1's
post-insert neighbor map on the triangle graph from value [0] selects
the entry of key 2 (store id 1, distance 4), which dominates the other
entry (key 3, distance 3). -/
theorem worstScan_picks_max_witness :
    (worstScan gTri.store [0] EuclideanDistance [(2, some 1), (3, some 2)]).2 =
      some (1, 2) ∧
    ∃ wrec, getN gTri.store 1 = some wrec ∧ 2 = wrec.key ∧
      (worstScan gTri.store [0] EuclideanDistance [(2, some 1), (3, some 2)]).1 =
        EuclideanDistance wrec.value [0] ∧
      ∀ e ∈ [((2 : ℕ), some (1 : ℕ)), (3, some 2)], ∀ id rec0,
        e.2 = some id → getN gTri.store id = some rec0 →
        F32.le (EuclideanDistance rec0.value [0])
          (EuclideanDistance wrec.value [0]) = true :=
  ⟨by decide,
   worstScan_picks_max gTri.store [0] EuclideanDistance [(2, some 1), (3, some 2)]
     (fun e he id rec0 hid hrec => by
       rcases List.mem_cons.mp he with rfl | he2
       · have hid' : id = 1 := by simpa using hid.symm
         subst hid'
         have hx : getN gTri.store 1 =
             some { key := 2, value := [4], nbrs := some [(1, some 0), (3, some 2)] } := rfl
         rw [hx] at hrec
         injection hrec with hrec
         subst hrec
         decide
       · have he3 : e = (3, some 2) := by simpa using he2
         subst he3
         have hid' : id = 2 := by simpa using hid.symm
         subst hid'
         have hx : getN gTri.store 2 =
             some { key := 3, value := [3], nbrs := some [(1, some 0), (2, some 1)] } := rfl
         rw [hx] at hrec
         injection hrec with hrec
         subst hrec
         decide)
     1 2 (by decide)⟩

/-- C7: for 0 < Ml < 1, randomLevel returns the smallest level whose
uniform draw exceeds Ml, and the maximum itself when all draws are ≤ Ml,
where the maximum is round(log N / log(1/Ml)) + 1 for N the size of
layer 0 and 1 when N = 0 or the graph has no layers (specMax /
specMaxLevel / leastExceed are the spec-side definitions; randomLevelF /
maxLevelC are the implementation). -/
theorem randomLevel_spec (g : GGraph) (hml0 : 0 < g.Ml) (hml1 : g.Ml < 1) :
    ∃ rng' : List ℚ,
      randomLevelF g = .ok
        ((if leastExceed g.Ml g.rng (specMax g).toNat = (specMax g).toNat
            then specMax g
            else (leastExceed g.Ml g.rng (specMax g).toNat : ℤ)),
         { g with rng := rng' }) := by
  unfold randomLevelF specMax
  cases hls : g.layers with
  | nil =>
    dsimp only
    rcases hdl : drawLevels g.Ml 1 0 g.rng with ⟨lv, rng0⟩
    refine ⟨rng0, ?_⟩
    have hlv := drawLevels_fst g.Ml 1 g.rng 0
    rw [hdl] at hlv
    dsimp only at hlv
    rw [Nat.zero_add] at hlv
    subst hlv
    have hsm : specMaxLevel g.Ml 0 = 1 := by
      unfold specMaxLevel
      rw [if_pos rfl]
    rw [hsm]
    rfl
  | cons l0 rest =>
    dsimp only
    rw [if_neg (ne_of_gt hml0)]
    rw [maxLevelC_eq_spec g.Ml (layerSize l0) hml0 hml1]
    dsimp only
    refine ⟨(drawLevels g.Ml (specMaxLevel g.Ml (layerSize l0)).toNat 0 g.rng).2, ?_⟩
    have hlv := drawLevels_fst g.Ml (specMaxLevel g.Ml (layerSize l0)).toNat g.rng 0
    rw [Nat.zero_add] at hlv
    rw [hlv]

/-- Witness for C7 at a concrete input: on the triangle graph (Ml = 1/2,
no remaining draws, base layer of size 3) every draw is ≤ Ml, so
randomLevel returns the maximum itself. -/
theorem randomLevel_spec_witness :
    (0 < gTri.Ml ∧ gTri.Ml < 1) ∧
    ∃ rng' : List ℚ,
      randomLevelF gTri = .ok
        ((if leastExceed gTri.Ml gTri.rng (specMax gTri).toNat = (specMax gTri).toNat
            then specMax gTri
            else (leastExceed gTri.Ml gTri.rng (specMax gTri).toNat : ℤ)),
         { gTri with rng := rng' }) :=
  ⟨⟨by decide, by decide⟩, randomLevel_spec gTri (by decide) (by decide)⟩

/-- C4: on a duplicate key, Add deletes the prior node and inserts the
new one (Lookup afterwards returns the new vector), but the final
invariant check compares against the pre-delete length, so Add returns
the error "node not added" on every duplicate-key insert even though the
replacement has been carried out — contradicting both the claimed
success and Add's own doc comment. -/
theorem add_duplicate_key_fails :
    (AddF 100 EuclideanDistance gOneSrc [(5, [1])]).2 = gOne ∧
    (AddF 100 EuclideanDistance gOneSrc [(5, [1])]).1 = .ok () ∧
    (AddF 100 EuclideanDistance gOne [(5, [2])]).1 = .error "node not added" ∧
    LookupF (AddF 100 EuclideanDistance gOne [(5, [2])]).2 5 = some [2] ∧
    LenF (AddF 100 EuclideanDistance gOne [(5, [2])]).2 = 1 ∧ LenF gOne = 1 := by
  decide

/-- C6: on a non-empty graph, adding a node whose vector length differs
from the graph dimension returns the dimension-mismatch error and leaves
the graph (state, hence Len and every layer) unchanged. -/
theorem add_dimension_mismatch (fuel : ℕ) (dist : DistanceFunc) (g : GGraph)
    (key : ℕ) (vec : Vec) (hval : ValidateF g = .ok ())
    (hne : g.layers ≠ []) (hdim : DimsF g ≠ vec.length) :
    AddF fuel dist g [(key, vec)] = (.error "embedding dimension mismatch", g) := by
  simp only [AddF, hval, addAll, addOne, if_pos (And.intro hne hdim)]

/-- Witness for C6 at a concrete input. -/
theorem add_dimension_mismatch_witness :
    ValidateF gOne = .ok () ∧ gOne.layers ≠ [] ∧ DimsF gOne ≠ 2 ∧
    AddF 100 EuclideanDistance gOne [(7, [1, 2])] =
      (.error "embedding dimension mismatch", gOne) :=
  ⟨by decide, by decide, by decide,
   add_dimension_mismatch 100 EuclideanDistance gOne 7 [1, 2]
     (by decide) (by decide) (by decide)⟩

/-- Single-insert step of the gEmpty6 chain (1 of 3). -/
theorem stepA1 : addOne 100 EuclideanDistance gEmpty6 1 [0] = (.ok (), gA1) := by
  rfl

/-- Single-insert step of the gEmpty6 chain (2 of 3). -/
theorem stepA2 : addOne 100 EuclideanDistance gA1 2 [4] = (.ok (), gA2) := by
  rfl

/-- Single-insert step of the gEmpty6 chain (3 of 3). -/
theorem stepA3 : addOne 100 EuclideanDistance gA2 3 [3] = (.ok (), gTri) := by
  rfl

/-- Single-insert step of the gM2e4 chain (1 of 4). -/
theorem stepB1 : addOne 100 EuclideanDistance gM2e4 1 [0] = (.ok (), gB1) := by
  rfl

/-- Single-insert step of the gM2e4 chain (2 of 4). -/
theorem stepB2 : addOne 100 EuclideanDistance gB1 2 [1] = (.ok (), gB2) := by
  rfl

/-- Single-insert step of the gM2e4 chain (3 of 4). -/
theorem stepB3 : addOne 100 EuclideanDistance gB2 3 [2] = (.ok (), gK3) := by
  rfl

/-- Single-insert step of the gM2e4 chain (4 of 4): the insert whose
eviction triggers replenish and breaks edge symmetry. -/
theorem stepB4 : addOne 100 EuclideanDistance gK3 4 [3] = (.ok (), gQuad) := by
  rfl

/-- The three-insert run building the triangle graph. -/
theorem addChainTri :
    AddF 100 EuclideanDistance gEmpty6 [(1, [0]), (2, [4]), (3, [3])] = (.ok (), gTri) := by
  show addAll 100 EuclideanDistance [(1, [0]), (2, [4]), (3, [3])] gEmpty6 = _
  simp only [addAll, stepA1, stepA2, stepA3]

/-- The three-insert run building the complete 3-node graph. -/
theorem addChainK3 :
    AddF 100 EuclideanDistance gM2e4 [(1, [0]), (2, [1]), (3, [2])] = (.ok (), gK3) := by
  show addAll 100 EuclideanDistance [(1, [0]), (2, [1]), (3, [2])] gM2e4 = _
  simp only [addAll, stepB1, stepB2, stepB3]

/-- The four-insert run producing the asymmetric state. -/
theorem addChainQuad :
    AddF 100 EuclideanDistance gM2e4 [(1, [0]), (2, [1]), (3, [2]), (4, [3])] =
      (.ok (), gQuad) := by
  show addAll 100 EuclideanDistance [(1, [0]), (2, [1]), (3, [2]), (4, [3])] gM2e4 = _
  simp only [addAll, stepB1, stepB2, stepB3, stepB4]

/-- C1 counterexample: the round-trip law fails on a reachable graph.
Building the complete 3-node graph by three Adds and deleting key 1
leaves members 2 and 3 with stale pointers to the deleted record; the
original graph's Search still walks the stale pointer and returns the
deleted node (key 1), while the exported-and-reimported graph (where the
stale keys became nil) returns members 2 and 3 - different result lists
for the same query, k and distance function. -/
theorem export_import_search_differs :
    (AddF 100 EuclideanDistance gM2e4 [(1, [0]), (2, [1]), (3, [2])] = (.ok (), gK3) ∧
     DeleteF 100 gK3 1 = (true, gK3d) ∧ LookupF gK3d 1 = none) ∧
    importF (exportF gK3d) gZero = .ok gK3dImp ∧
    SearchF EuclideanDistance gK3d [0] 2 = .ok [(1, [0]), (2, [1])] ∧
    SearchF EuclideanDistance gK3dImp [0] 2 = .ok [(2, [1]), (3, [2])] ∧
    SearchF EuclideanDistance gK3d [0] 2 ≠ SearchF EuclideanDistance gK3dImp [0] 2 :=
  ⟨⟨addChainK3, by decide, by decide⟩, by decide, by decide, by decide, by decide⟩

/-- C2 counterexample: the list returned by Search is not sorted by
ascending distance.  On the triangle graph (reachable by three Adds),
the query [1] with k=3 returns nodes at distances 1, 3, 2 in that order
(the result is the raw backing sequence of the bounded result set, not
its pop-order; src's own TestGraph_AddSearch pins the same behaviour
with distances 0.5, 0.5, 2.5, 1.5). -/
theorem search_result_not_sorted :
    AddF 100 EuclideanDistance gEmpty6 [(1, [0]), (2, [4]), (3, [3])] = (.ok (), gTri) ∧
    SearchF EuclideanDistance gTri [1] 3 = .ok [(1, [0]), (2, [4]), (3, [3])] ∧
    EuclideanDistance [0] [1] = F32.val 1 ∧
    EuclideanDistance [4] [1] = F32.val 3 ∧
    EuclideanDistance [3] [1] = F32.val 2 ∧
    ascendingBy EuclideanDistance [1] [(1, [0]), (2, [4]), (3, [3])] = false :=
  ⟨addChainTri, by rfl, by decide, by decide, by decide, by decide⟩

/-- C3 counterexample: an Add-only sequence (four nodes, M=2) produces an
asymmetric neighbor relation between two base-layer members: during the
fourth insert an eviction triggers replenish on node key 1, which adds a
one-directional edge to node key 3. -/
theorem add_only_asymmetry :
    AddF 100 EuclideanDistance gM2e4 [(1, [0]), (2, [1]), (3, [2]), (4, [3])] =
      (.ok (), gQuad) ∧
    gQuad.layers = [getLayer gQuad 0] ∧
    (memberB (getLayer gQuad 0) 0 ∧ memberB (getLayer gQuad 0) 2 ∧
      edgeB gQuad.store 0 2 ∧ edgeB gQuad.store 2 0 = false) ∧
    symmLoopFree gQuad = false :=
  ⟨addChainQuad, by decide, by decide, by decide⟩

/-- C9 counterexample: (a) during a reachable Add the greedy layer search
runs on a non-empty layer (entry node id 0) and returns a non-empty
result that does NOT contain the entry node; (b) on a graph with a stale
upper-layer reference the Internal branch of Add is reachable, and when
it fires the graph has already been mutated (the new node was inserted
into layer 1 before the base-layer search point failed to resolve). -/
theorem internal_branch_reachable :
    (AddF 100 EuclideanDistance gM2e4 [(1, [0]), (2, [1]), (3, [2])] = (.ok (), gK3) ∧
     layerEntry (getLayer gK3 0) = some 0 ∧
     searchF gK3.store (some 0) gK3.M gK3.EfSearch [3] EuclideanDistance =
       [(2, F32.val 1), (1, F32.val 2)] ∧
     (∀ c ∈ [((2 : ℕ), F32.val 1), (1, F32.val 2)], c.1 ≠ 0)) ∧
    (AddF 100 EuclideanDistance gBroken [(40, [6])] =
      (.error "no nodes found in neighborhood search",
       { M := 2, Ml := 1/2, EfSearch := 20, rng := [],
         store :=
           [{ key := 10, value := [0], nbrs := some [(20, some 1)] },
            { key := 20, value := [1], nbrs := some [(10, some 0)] },
            { key := 10, value := [0], nbrs := some [(30, some 3), (40, some 4)] },
            { key := 30, value := [5], nbrs := some [(10, some 2), (40, some 4)] },
            { key := 40, value := [6], nbrs := some [(10, some 2), (30, some 3)] }],
         layers := [[(10, 0), (20, 1)], [(10, 2), (40, 4)]] }) ∧
     [[((10 : ℕ), (0 : ℕ)), (20, 1)], [(10, 2), (40, 4)]] ≠ gBroken.layers) :=
  ⟨⟨addChainK3, by decide, by rfl, by decide⟩, by rfl, by decide⟩

/-- C5 counterexample: a NaN distance is not treated as worst.  Node 10
has neighbors at distances 5 (key 11) and NaN (key 12); inserting a
third neighbor (distance 1) with M=2 evicts the distance-5 neighbor, not
the NaN one: the scan's comparison d > worstDist is false for NaN, so a
NaN neighbor encountered after a finite maximum is never selected. -/
theorem addNeighbor_nan_not_worst :
    nanDist [5] [0] = F32.val 5 ∧ nanDist [2] [0] = F32.nan ∧
    nanDist [1] [0] = F32.val 1 ∧
    addNeighborF 50 sC5 0 3 2 nanDist =
      [{ key := 10, value := [0], nbrs := some [(12, some 2), (13, some 3)] },
       { key := 11, value := [5], nbrs := some [] },
       { key := 12, value := [2], nbrs := some [(10, some 0)] },
       { key := 13, value := [1], nbrs := none }] := by
  decide

/-- C8: Export's stream is version, M, Ml, EfSearch and then immediately
the layer count — no distance-function name is written anywhere, and the
registry is never consulted, so exporting succeeds even for a distance
function that is not registered (contradicting the claim and the
repository's own encode test, which requires the distance function to be
restored after importing into a zero-value graph). -/
theorem export_writes_no_distance_name :
    (∀ g : GGraph, exportF g =
      [Tok.tint 1, Tok.tint g.M, Tok.tf64 g.Ml, Tok.tint g.EfSearch,
       Tok.tint g.layers.length] ++ g.layers.flatMap (exportLayer g.store)) ∧
    exportF gOne = [Tok.tint 1, Tok.tint 6, Tok.tf64 (1/2), Tok.tint 20,
      Tok.tint 1, Tok.tint 1, Tok.tint 5, Tok.tint 1, Tok.tvec [1], Tok.tint 0] ∧
    (∀ t ∈ exportF gOne, Tok.isStr t = false) ∧
    ¬ registered constNan := by
  refine ⟨fun g => rfl, by decide, by decide, ?_⟩
  rintro ⟨p, hp, he⟩
  simp only [distanceFuncs, List.mem_cons, List.mem_singleton] at hp
  rcases hp with h | h | h
  · subst h
    exact absurd (congrFun (congrFun he []) []) (by decide)
  · subst h
    exact absurd (congrFun (congrFun he []) []) (by decide)
  · cases h

end HNSW
